import Mathlib

/-!
# Verification of the interactive network graph editor

A shallow embedding, in Lean 4, of the graph-editor core of
`src/hooks/useNetworkEditor.js` (the revision with the adjacency index
`nodeEdgeIndex`): parsing raw line geometry into a node/edge graph with an
adjacency index, the cached GeoJSON projections, the closest-segment query,
and the mutating operations (drag-move, drag-connect on mouse-up, split edge,
delete node, context-menu handlers).

Modelling conventions:
* JavaScript numbers are modelled as rationals (`ℚ`); `toFixed(6)` is modelled
  by `keyQ` below (round half away from zero on the rendered magnitude,
  keeping the sign that `toFixed` prints for negative inputs).
* JavaScript `Map`s are modelled as insertion-ordered association lists
  (`JMap`) with `aget` / `aset` / `adel` mirroring `get` / `set` / `delete`;
  `Set`s of edge ids are insertion-ordered duplicate-free lists with
  `sadd` / `sdel` mirroring `add` / `delete`.
* The identifier strings the code generates (`n${nc}`, `e${ec}`,
  `n_split_${ts}`, `e_${ts}a`, `e_${ts}b`, `e_conn_${ts}`) are modelled by
  the inductive types `NodeId` / `EdgeId`; the string rendering is injective
  on these shapes, so string equality coincides with equality of the
  constructors applied to the counter / timestamp values.
* `Date.now()` is passed in as an explicit `ts : Nat` argument.
-/

/-- Node identities: `n${k}` from the parse counter, `n_split_${ts}` from
splitting an edge at timestamp `ts`. -/
inductive NodeId where
  | parsed (k : Nat)
  | split (ts : Nat)
deriving DecidableEq, Repr

/-- Edge identities: `e${k}` from the parse counter, `e_${ts}a` / `e_${ts}b`
from a split, `e_conn_${ts}` from a drag-connect. -/
inductive EdgeId where
  | parsed (k : Nat)
  | splitA (ts : Nat)
  | splitB (ts : Nat)
  | conn (ts : Nat)
deriving DecidableEq, Repr

/-- A node record `{ id, lng, lat }`. -/
structure Node where
  id : NodeId
  lng : ℚ
  lat : ℚ
deriving DecidableEq, Repr

/-- An edge record `{ id, nodeIds }`: an ordered polyline of node ids. -/
structure Edge where
  id : EdgeId
  nodeIds : List NodeId
deriving DecidableEq, Repr

/-- Insertion-ordered association list modelling a JavaScript `Map`. -/
abbrev JMap (κ τ : Type) := List (κ × τ)

/-- `Map.get`: value at the first (unique) binding of `k`. -/
def aget [DecidableEq κ] : JMap κ τ → κ → Option τ
  | [], _ => none
  | (k', v) :: rest, k => if k' = k then some v else aget rest k

/-- `Map.set`: replace the binding of `k` in place if present, else append. -/
def aset [DecidableEq κ] : JMap κ τ → κ → τ → JMap κ τ
  | [], k, v => [(k, v)]
  | (k', v') :: rest, k, v =>
      if k' = k then (k, v) :: rest else (k', v') :: aset rest k v

/-- `Map.delete`: drop the binding of `k`, keeping the others in order. -/
def adel [DecidableEq κ] : JMap κ τ → κ → JMap κ τ
  | [], _ => []
  | (k', v) :: rest, k =>
      if k' = k then adel rest k else (k', v) :: adel rest k

/-- `Set.add`: append if not already a member. -/
def sadd [DecidableEq α] (s : List α) (a : α) : List α :=
  if a ∈ s then s else s ++ [a]

/-- `Set.delete`: remove the member. -/
def sdel [DecidableEq α] (s : List α) (a : α) : List α :=
  s.filter (fun x => x ≠ a)

/-- The graph state `{ nodes, edges, nodeEdgeIndex }` held in `netRef`. -/
structure Net where
  nodes : JMap NodeId Node
  edges : JMap EdgeId Edge
  nodeEdgeIndex : JMap NodeId (List EdgeId)
deriving DecidableEq, Repr

/-- The edge-id set the index holds for `nid` (`nodeEdgeIndex.get(nid) ?? ∅`). -/
def entryOf (net : Net) (nid : NodeId) : List EdgeId :=
  (aget net.nodeEdgeIndex nid).getD []

-- ── Parse GeoJSON → node/edge graph + adjacency index ────────────────────────

/-- A `(lng, lat)` vertex of an input line. -/
structure Point where
  lng : ℚ
  lat : ℚ
deriving DecidableEq, Repr

/-- The dedup key of one coordinate, modelling `x.toFixed(6)`: the printed
string is a sign (present exactly when `x < 0`) followed by the magnitude
rounded half away from zero at the 6th decimal digit. -/
def keyQ (q : ℚ) : Bool × Nat :=
  (decide (q < 0), (⌊|q| * 1000000 + 1 / 2⌋).toNat)

/-- The dedup key of a vertex, modelling `` `${lng.toFixed(6)},${lat.toFixed(6)}` ``. -/
def keyOf (p : Point) : (Bool × Nat) × (Bool × Nat) :=
  (keyQ p.lng, keyQ p.lat)

/-- The mutable state of `parseNetwork`'s loop: the dedup map `byKey`, the
node / edge counters `nc` / `ec`, and the accumulating `edges` and
`nodeEdgeIndex` maps. -/
structure ParseState where
  byKey : JMap ((Bool × Nat) × (Bool × Nat)) Node
  nc : Nat
  edges : JMap EdgeId Edge
  ec : Nat
  nodeEdgeIndex : JMap NodeId (List EdgeId)
deriving DecidableEq, Repr

/-- `getNode(lng, lat)`: look the key `(lng.toFixed(6), lat.toFixed(6))` up
in `byKey`; the first time the key is seen, bind it to a fresh node
`{ id: n${nc++}, lng, lat }`.  The returned id is the binding's id. -/
def getNode (s : ParseState) (lng lat : ℚ) : NodeId × ParseState :=
  match aget s.byKey (keyQ lng, keyQ lat) with
  | some n => (n.id, s)
  | none =>
      (NodeId.parsed s.nc,
        { s with
          byKey := aset s.byKey (keyQ lng, keyQ lat)
            ⟨NodeId.parsed s.nc, lng, lat⟩
          nc := s.nc + 1 })

/-- `ring.map(([lng, lat]) => getNode(lng, lat))`: stateful map of `getNode`
over the vertices of one ring. -/
def resolveRing (s : ParseState) : List Point → List NodeId × ParseState
  | [] => ([], s)
  | p :: rest =>
      let r1 := getNode s p.lng p.lat
      let r2 := resolveRing r1.2 rest
      (r1.1 :: r2.1, r2.2)

/-- `for (const nid of L) { if (!index.has(nid)) index.set(nid, new Set());
index.get(nid).add(eid); }` -/
def indexAdd (m : JMap NodeId (List EdgeId)) (nid : NodeId) (eid : EdgeId) :
    JMap NodeId (List EdgeId) :=
  aset m nid (sadd ((aget m nid).getD []) eid)

/-- The loop of `indexAdd` over a node-id list. -/
def indexAddAll (m : JMap NodeId (List EdgeId)) (eid : EdgeId)
    (L : List NodeId) : JMap NodeId (List EdgeId) :=
  L.foldl (fun m' nid => indexAdd m' nid eid) m

/-- The body of `parseNetwork`'s ring loop: resolve the vertices, and when at
least 2 resolved ids exist create edge `e${ec++}` and index it under each of
its node ids. -/
def ringStep (s : ParseState) (ring : List Point) : ParseState :=
  let r := resolveRing s ring
  let nodeIds := r.1
  let s1 := r.2
  if nodeIds.length < 2 then s1
  else
    let eid := EdgeId.parsed s1.ec
    { s1 with
      edges := aset s1.edges eid ⟨eid, nodeIds⟩
      ec := s1.ec + 1
      nodeEdgeIndex := indexAddAll s1.nodeEdgeIndex eid nodeIds }

/-- A feature geometry: `LineString` yields one ring, `MultiLineString` its
list of rings. -/
inductive Geometry where
  | lineString (coordinates : List Point)
  | multiLineString (coordinates : List (List Point))
deriving DecidableEq, Repr

/-- `geometry.type === "LineString" ? [coordinates] : coordinates`. -/
def Geometry.rings : Geometry → List (List Point)
  | .lineString c => [c]
  | .multiLineString c => c

/-- The final fold state of `parseNetwork` over the flattened ring stream. -/
def parseState (rings : List (List Point)) : ParseState :=
  rings.foldl ringStep ⟨[], 0, [], 0, []⟩

/-- `parseNetwork(geojson)` on an already-flattened list of rings: the nodes
map re-keys the `byKey` values by their ids. -/
def parseNetwork (rings : List (List Point)) : Net :=
  let s := parseState rings
  { nodes := s.byKey.map (fun p => (p.2.id, p.2))
    edges := s.edges
    nodeEdgeIndex := s.nodeEdgeIndex }

/-- `parseNetwork(geojson)` from a feature list, flattening each geometry to
its rings exactly as the nested `for` loops do. -/
def parseNetworkGeo (features : List Geometry) : Net :=
  parseNetwork (features.flatMap Geometry.rings)

-- ── Build GeoJSON caches ─────────────────────────────────────────────────────

/-- A cached node `Feature` (`properties.id` + `Point` coordinates). -/
structure NodeFeat where
  id : NodeId
  coordinates : ℚ × ℚ
deriving DecidableEq, Repr

/-- A cached edge `Feature` (`properties.id` + `LineString` coordinates). -/
structure EdgeFeat where
  id : EdgeId
  coordinates : List (ℚ × ℚ)
deriving DecidableEq, Repr

/-- `e.nodeIds.map(id => nodes.get(id)).filter(Boolean).map(n => [n.lng, n.lat])`. -/
def edgeCoords (nodes : JMap NodeId Node) (e : Edge) : List (ℚ × ℚ) :=
  (e.nodeIds.filterMap (aget nodes)).map (fun n => (n.lng, n.lat))

/-- The cached feature collections built by `buildCaches`.  The code also
keeps `nodeFeatMap` / `edgeFeatMap` pointing at the same feature objects;
since those maps always hold exactly the features of the collections keyed by
their `properties.id`, they are modelled as lookups into these lists. -/
structure Caches where
  nodeFC : List NodeFeat
  edgeFC : List EdgeFeat
deriving DecidableEq, Repr

/-- `buildCaches({ nodes, edges })`: one point feature per node, one line
feature per edge whose resolved coordinate list has length ≥ 2. -/
def buildCaches (net : Net) : Caches :=
  { nodeFC := net.nodes.map (fun p => ⟨p.2.id, (p.2.lng, p.2.lat)⟩)
    edgeFC := net.edges.filterMap (fun p =>
      let coords := edgeCoords net.nodes p.2
      if coords.length < 2 then none else some ⟨p.2.id, coords⟩) }

-- ── Closest segment index (for split) ────────────────────────────────────────

/-- The loop body of `closestSegmentIdx`: squared distance from the split
point to the midpoint of segment `(nodeIds[i], nodeIds[i+1])`, skipping
segments with an unresolved endpoint; `bestD` starts at `Infinity` (`⊤`). -/
def closestSegmentIdx (nodeIds : List NodeId) (nodes : JMap NodeId Node)
    (lng lat : ℚ) : Nat :=
  ((List.range (nodeIds.length - 1)).foldl
    (fun acc i =>
      match (nodeIds[i]?).bind (aget nodes), (nodeIds[i+1]?).bind (aget nodes) with
      | some a, some b =>
          let d : ℚ := ((a.lng + b.lng) / 2 - lng) ^ 2 + ((a.lat + b.lat) / 2 - lat) ^ 2
          if (d : WithTop ℚ) < acc.2 then (i, (d : WithTop ℚ)) else acc
      | _, _ => acc)
    (0, (⊤ : WithTop ℚ))).1

/-- The squared midpoint distance the loop compares at index `i` (0 when an
endpoint is unresolved; under the all-resolved hypotheses of the theorems the
default is never taken). -/
def midD (nodeIds : List NodeId) (nodes : JMap NodeId Node)
    (lng lat : ℚ) (i : Nat) : ℚ :=
  match (nodeIds[i]?).bind (aget nodes), (nodeIds[i+1]?).bind (aget nodes) with
  | some a, some b =>
      ((a.lng + b.lng) / 2 - lng) ^ 2 + ((a.lat + b.lat) / 2 - lat) ^ 2
  | _, _ => 0

-- ── Interaction state and handlers ───────────────────────────────────────────

/-- `draggingRef.current`: the dragged node id and its pre-drag position. -/
structure Drag where
  nodeId : NodeId
  origLng : ℚ
  origLat : ℚ
deriving DecidableEq, Repr

/-- The graph-and-cache effect of `onMouseMove` during a drag (the hot path):
mutate the node position in place, refresh its cached point feature, and
refresh the cached polylines of exactly the edges `nodeEdgeIndex` lists for
the dragged node.  Rendering side effects (`setData`) are external. -/
def dragMove (net : Net) (caches : Caches) (nodeId : NodeId) (lng lat : ℚ) :
    Net × Caches :=
  match aget net.nodes nodeId with
  | none => (net, caches)
  | some node =>
      let nodes' := aset net.nodes nodeId { node with lng := lng, lat := lat }
      let nodeFC' := caches.nodeFC.map (fun f =>
        if f.id = nodeId then { f with coordinates := (lng, lat) } else f)
      let conn := entryOf net nodeId
      let edgeFC' := caches.edgeFC.map (fun f =>
        if f.id ∈ conn then
          match aget net.edges f.id with
          | some edge => { f with coordinates := edgeCoords nodes' edge }
          | none => f
        else f)
      ({ net with nodes := nodes' }, ⟨nodeFC', edgeFC'⟩)

/-- The graph effect of `onMouseUp` ending a drag.  `hits` is the id list the
map collaborator's `queryRenderedFeatures` returns for the release point on
the node layer; the target is the first hit other than the dragged node.  On
a target: snap the dragged node back to its original position (when it still
exists), then add edge `e_conn_${ts}` between the two ids and index it under
both.  Otherwise the graph is left as the drag left it.  Cache refreshes and
`setData` pushes are rendering side effects, external to the graph state. -/
def onMouseUp (net : Net) (drag : Drag) (hits : List NodeId) (ts : Nat) : Net :=
  match hits.find? (fun fid => fid ≠ drag.nodeId) with
  | none => net
  | some toId =>
      let net1 :=
        match aget net.nodes drag.nodeId with
        | some node =>
            { net with
              nodes := aset net.nodes drag.nodeId
                { node with lng := drag.origLng, lat := drag.origLat } }
        | none => net
      let newEId := EdgeId.conn ts
      let newEdge : Edge := ⟨newEId, [drag.nodeId, toId]⟩
      { net1 with
        edges := aset net1.edges newEId newEdge
        nodeEdgeIndex := indexAddAll net1.nodeEdgeIndex newEId [drag.nodeId, toId] }

/-- The context-menu descriptor `setContextMenu` stores. -/
inductive CtxMenu where
  | edge (edgeId : EdgeId) (x y lng lat : ℚ)
  | node (nodeId : NodeId) (x y : ℚ)
deriving DecidableEq, Repr

/-- `onEdgeContextMenu`: opens the edge menu whenever the event carries an
edge feature id — there is no check of `draggingRef`. -/
def onEdgeContextMenu (dragging : Bool) (featId : Option EdgeId)
    (x y lng lat : ℚ) (menu : Option CtxMenu) : Option CtxMenu :=
  match featId with
  | none => menu
  | some edgeId => some (.edge edgeId x y lng lat)

/-- `onNodeContextMenu`: returns early while `draggingRef.current` is set,
otherwise opens the node menu when the event carries a node feature id. -/
def onNodeContextMenu (dragging : Bool) (featId : Option NodeId)
    (x y : ℚ) (menu : Option CtxMenu) : Option CtxMenu :=
  if dragging then menu
  else
    match featId with
    | none => menu
    | some nodeId => some (.node nodeId x y)

-- ── Split edge ───────────────────────────────────────────────────────────────

/-- `for (const nid of L) nodeEdgeIndex.get(nid)?.delete(edgeId)`. -/
def indexDelAll (m : JMap NodeId (List EdgeId)) (eid : EdgeId)
    (L : List NodeId) : JMap NodeId (List EdgeId) :=
  L.foldl (fun m' nid =>
    match aget m' nid with
    | some s => aset m' nid (sdel s eid)
    | none => m') m

/-- The graph effect of `splitEdge(edgeId, lng, lat)` at timestamp `ts`:
no-op when the edge is absent; otherwise create node `n_split_${ts}` at the
split point, replace the edge by `e_${ts}a = [nodeIds[0..i], N]` and
`e_${ts}b = [N, nodeIds[i+1..]]`, remove the old edge id from its endpoints'
index entries, set the new node's entry to the two new ids, and index each
new edge under all of its node ids.  Feature-cache maintenance and `setData`
are rendering side effects, external to the graph state. -/
def splitEdge (net : Net) (edgeId : EdgeId) (lng lat : ℚ) (ts : Nat) : Net :=
  match aget net.edges edgeId with
  | none => net
  | some edge =>
      let idx := closestSegmentIdx edge.nodeIds net.nodes lng lat
      let newNodeId := NodeId.split ts
      let nodes' := aset net.nodes newNodeId ⟨newNodeId, lng, lat⟩
      let eA : Edge := ⟨EdgeId.splitA ts, edge.nodeIds.take (idx + 1) ++ [newNodeId]⟩
      let eB : Edge := ⟨EdgeId.splitB ts, newNodeId :: edge.nodeIds.drop (idx + 1)⟩
      let edges' := aset (aset (adel net.edges edgeId) eA.id eA) eB.id eB
      let idx1 := indexDelAll net.nodeEdgeIndex edgeId edge.nodeIds
      let idx2 := aset idx1 newNodeId [eA.id, eB.id]
      let idx3 := indexAddAll idx2 eA.id eA.nodeIds
      let idx4 := indexAddAll idx3 eB.id eB.nodeIds
      { nodes := nodes', edges := edges', nodeEdgeIndex := idx4 }

-- ── Delete node ──────────────────────────────────────────────────────────────

/-- The graph effect of `deleteNode(nodeId)`: copy the node's index entry,
delete every edge it lists, delete those edge ids from every index entry,
then delete the node and its own entry.  Feature-cache maintenance and
`setData` are rendering side effects, external to the graph state. -/
def deleteNode (net : Net) (nodeId : NodeId) : Net :=
  let connected := entryOf net nodeId
  let edges' := connected.foldl (fun m eid => adel m eid) net.edges
  let index1 := net.nodeEdgeIndex.map (fun q => (q.1, connected.foldl sdel q.2))
  { nodes := adel net.nodes nodeId
    edges := edges'
    nodeEdgeIndex := adel index1 nodeId }

-- ── Concrete fixture states used by the witnesses ───────────────────────────

/-- A 3-node polyline graph (the specification's split example): nodes A, B,
C at (0,0), (1,0), (2,0) joined by the single parsed edge `[A, B, C]`. -/
def c2net : Net :=
  { nodes := [(NodeId.parsed 0, ⟨NodeId.parsed 0, 0, 0⟩),
      (NodeId.parsed 1, ⟨NodeId.parsed 1, 1, 0⟩),
      (NodeId.parsed 2, ⟨NodeId.parsed 2, 2, 0⟩)]
    edges := [(EdgeId.parsed 0,
      ⟨EdgeId.parsed 0, [NodeId.parsed 0, NodeId.parsed 1, NodeId.parsed 2]⟩)]
    nodeEdgeIndex := [(NodeId.parsed 0, [EdgeId.parsed 0]),
      (NodeId.parsed 1, [EdgeId.parsed 0]),
      (NodeId.parsed 2, [EdgeId.parsed 0])] }

/-- The cascade-deletion example graph: nodes A, B, C with edges A–B and
B–C, all indexed. -/
def c3net : Net :=
  { nodes := [(NodeId.parsed 0, ⟨NodeId.parsed 0, 0, 0⟩),
      (NodeId.parsed 1, ⟨NodeId.parsed 1, 1, 0⟩),
      (NodeId.parsed 2, ⟨NodeId.parsed 2, 2, 0⟩)]
    edges := [(EdgeId.parsed 0,
        ⟨EdgeId.parsed 0, [NodeId.parsed 0, NodeId.parsed 1]⟩),
      (EdgeId.parsed 1,
        ⟨EdgeId.parsed 1, [NodeId.parsed 1, NodeId.parsed 2]⟩)]
    nodeEdgeIndex := [(NodeId.parsed 0, [EdgeId.parsed 0]),
      (NodeId.parsed 1, [EdgeId.parsed 0, EdgeId.parsed 1]),
      (NodeId.parsed 2, [EdgeId.parsed 1])] }

/-- The state `onNodeMouseDown` records in `draggingRef` when the pressed
node exists: the node id with its current (pre-drag) position. -/
def mouseDownDrag (net : Net) (nodeId : NodeId) : Option Drag :=
  (aget net.nodes nodeId).map (fun n => ⟨nodeId, n.lng, n.lat⟩)

/-- A drag gesture's stream of `onMouseMove` events for one node: fold of
`dragMove` over the pointer positions. -/
def movesFold (net : Net) (c : Caches) (nodeId : NodeId)
    (moves : List (ℚ × ℚ)) : Net × Caches :=
  moves.foldl (fun s mv => dragMove s.1 s.2 nodeId mv.1 mv.2) (net, c)

/-- A one-node graph (B only) used to exhibit the stale-drag behaviour. -/
def c7net : Net :=
  { nodes := [(NodeId.parsed 0, ⟨NodeId.parsed 0, 1, 1⟩)]
    edges := []
    nodeEdgeIndex := [] }

/-- The node identity a coordinate key resolves to in a parse state: the id
of the `byKey` binding of the vertex's dedup key, when one exists. -/
def resolveVertex (s : ParseState) (p : Point) : Option NodeId :=
  (aget s.byKey (keyOf p)).map Node.id

/-- `resolveVertex` with a junk default, for positional statements over
vertices that are known to be bound. -/
def resolveD (s : ParseState) (p : Point) : NodeId :=
  (resolveVertex s p).getD (NodeId.parsed 0)

-- ── Lemmas about the JavaScript Map / Set model ──────────────────────────────

section JMapLemmas

variable {κ τ : Type} [DecidableEq κ]

theorem aget_aset_self (m : JMap κ τ) (k : κ) (v : τ) :
    aget (aset m k v) k = some v := by
  induction m with
  | nil => simp [aget, aset]
  | cons p rest ih =>
      obtain ⟨k', v'⟩ := p
      by_cases h : k' = k <;> simp [aset, aget, h, ih]

theorem aget_aset_ne (m : JMap κ τ) {k k' : κ} (v : τ) (h : k' ≠ k) :
    aget (aset m k v) k' = aget m k' := by
  have h' : ¬ k = k' := fun hk => h hk.symm
  induction m with
  | nil => simp [aget, aset, h']
  | cons p rest ih =>
      obtain ⟨a, b⟩ := p
      by_cases ha : a = k
      · subst ha
        simp [aset, aget, h']
      · simp [aset, aget, ha, ih]

theorem aget_adel_self (m : JMap κ τ) (k : κ) : aget (adel m k) k = none := by
  induction m with
  | nil => simp [aget, adel]
  | cons p rest ih =>
      obtain ⟨a, b⟩ := p
      by_cases h : a = k <;> simp [adel, aget, h, ih]

theorem aget_adel_ne (m : JMap κ τ) {k k' : κ} (h : k' ≠ k) :
    aget (adel m k) k' = aget m k' := by
  have h' : ¬ k = k' := fun hk => h hk.symm
  induction m with
  | nil => simp [adel]
  | cons p rest ih =>
      obtain ⟨a, b⟩ := p
      by_cases ha : a = k
      · subst ha
        simp [adel, aget, h', ih]
      · simp [adel, aget, ha, ih]

theorem aget_eq_none_iff (m : JMap κ τ) (k : κ) :
    aget m k = none ↔ ∀ p ∈ m, p.1 ≠ k := by
  induction m with
  | nil => simp [aget]
  | cons p rest ih =>
      obtain ⟨a, b⟩ := p
      by_cases h : a = k <;> simp [aget, h, ih]

theorem mem_of_aget_eq_some {m : JMap κ τ} {k : κ} {v : τ}
    (h : aget m k = some v) : (k, v) ∈ m := by
  induction m with
  | nil => simp [aget] at h
  | cons p rest ih =>
      obtain ⟨a, b⟩ := p
      by_cases ha : a = k
      · subst ha
        simp [aget] at h
        simp [h]
      · simp [aget, ha] at h
        simp [ih h]

theorem mem_aset {m : JMap κ τ} {k : κ} {v : τ} {p : κ × τ}
    (h : p ∈ aset m k v) : p = (k, v) ∨ p ∈ m := by
  induction m with
  | nil => simpa [aset] using h
  | cons q rest ih =>
      obtain ⟨a, b⟩ := q
      by_cases ha : a = k
      · simp [aset, ha] at h
        rcases h with h | h
        · exact Or.inl (by simp [h])
        · exact Or.inr (by simp [h])
      · simp [aset, ha] at h
        rcases h with h | h
        · exact Or.inr (by simp [h])
        · rcases ih h with h' | h'
          · exact Or.inl h'
          · exact Or.inr (by simp [h'])

theorem mem_aset_of_mem {m : JMap κ τ} {p : κ × τ} (k : κ) (v : τ)
    (hp : p ∈ m) (hk : p.1 ≠ k) : p ∈ aset m k v := by
  induction m with
  | nil => simp at hp
  | cons q rest ih =>
      obtain ⟨a, b⟩ := q
      by_cases ha : a = k
      · rw [show aset ((a, b) :: rest) k v = (k, v) :: rest from by simp [aset, ha]]
        rcases List.mem_cons.1 hp with h | h
        · exact absurd ha (by simp [h] at hk ⊢; exact hk)
        · exact List.mem_cons_of_mem _ h
      · rw [show aset ((a, b) :: rest) k v = (a, b) :: aset rest k v from by
            simp [aset, ha]]
        rcases List.mem_cons.1 hp with h | h
        · exact h ▸ List.mem_cons_self _ _
        · exact List.mem_cons_of_mem _ (ih h)

theorem self_mem_aset (m : JMap κ τ) (k : κ) (v : τ) : (k, v) ∈ aset m k v := by
  induction m with
  | nil => simp [aset]
  | cons q rest ih =>
      obtain ⟨a, b⟩ := q
      by_cases ha : a = k <;> simp [aset, ha, ih]

theorem mem_adel {m : JMap κ τ} {k : κ} {p : κ × τ} :
    p ∈ adel m k ↔ p ∈ m ∧ p.1 ≠ k := by
  induction m with
  | nil => simp [adel]
  | cons q rest ih =>
      obtain ⟨a, b⟩ := q
      by_cases ha : a = k
      · rw [show adel ((a, b) :: rest) k = adel rest k from by simp [adel, ha]]
        rw [ih]
        constructor
        · rintro ⟨h1, h2⟩
          exact ⟨List.mem_cons_of_mem _ h1, h2⟩
        · rintro ⟨h1, h2⟩
          rcases List.mem_cons.1 h1 with h3 | h3
          · exact absurd (by simp [h3, ha]) h2
          · exact ⟨h3, h2⟩
      · rw [show adel ((a, b) :: rest) k = (a, b) :: adel rest k from by
            simp [adel, ha]]
        constructor
        · intro h
          rcases List.mem_cons.1 h with h3 | h3
          · exact ⟨h3 ▸ List.mem_cons_self _ _, by simp [h3, ha]⟩
          · exact ⟨List.mem_cons_of_mem _ (ih.1 h3).1, (ih.1 h3).2⟩
        · rintro ⟨h1, h2⟩
          rcases List.mem_cons.1 h1 with h3 | h3
          · exact h3 ▸ List.mem_cons_self _ _
          · exact List.mem_cons_of_mem _ (ih.2 ⟨h3, h2⟩)

theorem aset_of_aget_none {m : JMap κ τ} {k : κ} (v : τ)
    (h : aget m k = none) : aset m k v = m ++ [(k, v)] := by
  induction m with
  | nil => simp [aset]
  | cons q rest ih =>
      obtain ⟨a, b⟩ := q
      by_cases ha : a = k
      · simp [aget, ha] at h
      · simp [aget, ha] at h
        simp [aset, ha, ih h]

theorem adel_of_aget_none {m : JMap κ τ} {k : κ} (h : aget m k = none) :
    adel m k = m := by
  induction m with
  | nil => simp [adel]
  | cons q rest ih =>
      obtain ⟨a, b⟩ := q
      by_cases ha : a = k
      · simp [aget, ha] at h
      · simp [aget, ha] at h
        simp [adel, ha, ih h]

theorem length_aset_of_aget_isSome {m : JMap κ τ} {k : κ} (v : τ)
    (h : (aget m k).isSome) : (aset m k v).length = m.length := by
  induction m with
  | nil => simp [aget] at h
  | cons q rest ih =>
      obtain ⟨a, b⟩ := q
      by_cases ha : a = k
      · simp [aset, ha]
      · simp [aget, ha] at h
        simp [aset, ha, ih h]

theorem length_aset_of_aget_none {m : JMap κ τ} {k : κ} (v : τ)
    (h : aget m k = none) : (aset m k v).length = m.length + 1 := by
  rw [aset_of_aget_none v h]
  simp

theorem keys_aset_of_aget_isSome {m : JMap κ τ} {k : κ} (v : τ)
    (h : (aget m k).isSome) :
    (aset m k v).map Prod.fst = m.map Prod.fst := by
  induction m with
  | nil => simp [aget] at h
  | cons q rest ih =>
      obtain ⟨a, b⟩ := q
      by_cases ha : a = k
      · simp [aset, ha]
      · simp [aget, ha] at h
        simp [aset, ha, ih h]

theorem aget_eq_some_of_mem_nodupkeys {m : JMap κ τ} {p : κ × τ}
    (hnd : (m.map Prod.fst).Nodup) (hp : p ∈ m) : aget m p.1 = some p.2 := by
  induction m with
  | nil => simp at hp
  | cons q rest ih =>
      obtain ⟨a, b⟩ := q
      rw [List.map_cons, List.nodup_cons] at hnd
      rcases List.mem_cons.1 hp with h | h
      · subst h
        simp [aget]
      · have ha : ¬ a = p.1 := by
          intro hcontra
          have hmem : p.1 ∈ rest.map Prod.fst := List.mem_map_of_mem Prod.fst h
          rw [hcontra] at hnd
          exact hnd.1 hmem
        simp [aget, ha, ih hnd.2 h]

end JMapLemmas

section SetLemmas

variable {α : Type} [DecidableEq α]

theorem mem_sadd {s : List α} {a x : α} : x ∈ sadd s a ↔ x ∈ s ∨ x = a := by
  by_cases h : a ∈ s
  · simp [sadd, h]
    intro hx
    subst hx
    exact h
  · simp [sadd, h]

theorem mem_sdel {s : List α} {a x : α} : x ∈ sdel s a ↔ x ∈ s ∧ x ≠ a := by
  simp [sdel]

theorem sadd_idem (s : List α) (a : α) : sadd (sadd s a) a = sadd s a := by
  have h : a ∈ sadd s a := mem_sadd.2 (Or.inr rfl)
  show (if a ∈ sadd s a then sadd s a else sadd s a ++ [a]) = sadd s a
  rw [if_pos h]

theorem sdel_idem (s : List α) (a : α) : sdel (sdel s a) a = sdel s a := by
  simp [sdel, List.filter_filter]

end SetLemmas

-- ── Characterizations of the index-update loops ──────────────────────────────

theorem aget_indexAddAll (m : JMap NodeId (List EdgeId)) (eid : EdgeId)
    (L : List NodeId) (nid : NodeId) :
    aget (indexAddAll m eid L) nid =
      if nid ∈ L then some (sadd ((aget m nid).getD []) eid) else aget m nid := by
  induction L generalizing m with
  | nil => simp [indexAddAll]
  | cons a L' ih =>
      show aget (indexAddAll (indexAdd m a eid) eid L') nid = _
      rw [ih]
      by_cases hna : nid = a
      · subst hna
        have hma : aget (indexAdd m nid eid) nid =
            some (sadd ((aget m nid).getD []) eid) := aget_aset_self _ _ _
        by_cases hL : nid ∈ L'
        · simp [hL, hma, sadd_idem]
        · simp [hL, hma]
      · have hma : aget (indexAdd m a eid) nid = aget m nid :=
          aget_aset_ne _ _ hna
        by_cases hL : nid ∈ L'
        · simp [hL, hma, hna]
        · simp [hL, hma, hna]

theorem aget_indexDelAll (m : JMap NodeId (List EdgeId)) (eid : EdgeId)
    (L : List NodeId) (nid : NodeId) :
    aget (indexDelAll m eid L) nid =
      (aget m nid).map (fun s => if nid ∈ L then sdel s eid else s) := by
  induction L generalizing m with
  | nil => cases h : aget m nid <;> simp [indexDelAll, h]
  | cons a L' ih =>
      rcases hma : aget m a with _ | s
      · have hstep : indexDelAll m eid (a :: L') = indexDelAll m eid L' := by
          show indexDelAll (match aget m a with
            | some s => aset m a (sdel s eid)
            | none => m) eid L' = _
          rw [hma]
        rw [hstep, ih]
        by_cases hna : nid = a
        · subst hna
          rw [hma]
          simp
        · simp [List.mem_cons, hna]
      · have hstep : indexDelAll m eid (a :: L') =
            indexDelAll (aset m a (sdel s eid)) eid L' := by
          show indexDelAll (match aget m a with
            | some s => aset m a (sdel s eid)
            | none => m) eid L' = _
          rw [hma]
        rw [hstep, ih]
        by_cases hna : nid = a
        · subst hna
          rw [aget_aset_self, hma]
          by_cases hL : nid ∈ L' <;> simp [hL, sdel_idem]
        · rw [aget_aset_ne _ _ hna]
          by_cases hL : nid ∈ L' <;> simp [hL, hna, List.mem_cons]

theorem aget_foldl_adel {κ τ : Type} [DecidableEq κ] (L : List κ)
    (m : JMap κ τ) (k : κ) :
    aget (L.foldl (fun m' x => adel m' x) m) k =
      if k ∈ L then none else aget m k := by
  induction L generalizing m with
  | nil => simp
  | cons a L' ih =>
      show aget (L'.foldl (fun m' x => adel m' x) (adel m a)) k = _
      rw [ih]
      by_cases hka : k = a
      · subst hka
        by_cases hL : k ∈ L' <;> simp [hL, aget_adel_self]
      · by_cases hL : k ∈ L' <;> simp [hL, hka, aget_adel_ne m hka]

theorem mem_foldl_sdel {α : Type} [DecidableEq α] (L : List α) (s : List α)
    (x : α) :
    x ∈ L.foldl sdel s ↔ x ∈ s ∧ x ∉ L := by
  induction L generalizing s with
  | nil => simp
  | cons a L' ih =>
      show x ∈ L'.foldl sdel (sdel s a) ↔ _
      rw [ih, mem_sdel]
      constructor
      · rintro ⟨⟨h1, h2⟩, h3⟩
        exact ⟨h1, by simp [h2, h3]⟩
      · rintro ⟨h1, h2⟩
        simp at h2
        exact ⟨⟨h1, h2.1⟩, h2.2⟩

-- ── Graph invariants ─────────────────────────────────────────────────────────

/-- The adjacency-index invariant exactly as the specification states it:
every edge's node ids map in the index to a set containing the edge's
identity, and every edge identity in any index entry names an existing
edge. -/
def ClaimedInv (net : Net) : Prop :=
  (∀ p ∈ net.edges, ∀ nid ∈ p.2.nodeIds,
      ∃ s, aget net.nodeEdgeIndex nid = some s ∧ p.2.id ∈ s) ∧
  (∀ q ∈ net.nodeEdgeIndex, ∀ eid ∈ q.2, (aget net.edges eid).isSome)

/-- The stronger invariant the operations actually maintain: well-keyed
duplicate-free maps, every edge indexed under each of its node ids, and every
index entry pointing only at existing edges that really touch the entry's
node. -/
def NetWf (net : Net) : Prop :=
  (net.nodes.map Prod.fst).Nodup ∧
  (∀ p ∈ net.nodes, p.2.id = p.1) ∧
  (net.edges.map Prod.fst).Nodup ∧
  (∀ p ∈ net.edges, p.2.id = p.1) ∧
  (net.nodeEdgeIndex.map Prod.fst).Nodup ∧
  (∀ p ∈ net.edges, ∀ nid ∈ p.2.nodeIds, p.1 ∈ entryOf net nid) ∧
  (∀ nid s, aget net.nodeEdgeIndex nid = some s → ∀ eid ∈ s,
      ∃ e, aget net.edges eid = some e ∧ nid ∈ e.nodeIds)

theorem nodupkeys_aset {κ τ : Type} [DecidableEq κ] {m : JMap κ τ} (k : κ)
    (v : τ) (h : (m.map Prod.fst).Nodup) :
    ((aset m k v).map Prod.fst).Nodup := by
  rcases hk : aget m k with _ | w
  · rw [aset_of_aget_none v hk]
    rw [List.map_append]
    rw [List.nodup_append]
    refine ⟨h, by simp, ?_⟩
    intro x hx hy
    simp at hy
    rcases List.mem_map.1 hx with ⟨p, hp, hpk⟩
    exact ((aget_eq_none_iff m k).1 hk p hp) (hpk.trans hy)
  · rw [keys_aset_of_aget_isSome v (by simp [hk])]
    exact h

theorem sublist_adel {κ τ : Type} [DecidableEq κ] (m : JMap κ τ) (k : κ) :
    (adel m k).Sublist m := by
  induction m with
  | nil => simp [adel]
  | cons q rest ih =>
      obtain ⟨a, b⟩ := q
      by_cases ha : a = k
      · rw [show adel ((a, b) :: rest) k = adel rest k from by simp [adel, ha]]
        exact ih.trans (List.sublist_cons_self _ _)
      · rw [show adel ((a, b) :: rest) k = (a, b) :: adel rest k from by
            simp [adel, ha]]
        exact ih.cons₂ _

theorem nodupkeys_adel {κ τ : Type} [DecidableEq κ] {m : JMap κ τ} (k : κ)
    (h : (m.map Prod.fst).Nodup) : ((adel m k).map Prod.fst).Nodup :=
  ((sublist_adel m k).map Prod.fst).nodup h

theorem nodupkeys_indexAddAll {m : JMap NodeId (List EdgeId)} (eid : EdgeId)
    (L : List NodeId) (h : (m.map Prod.fst).Nodup) :
    ((indexAddAll m eid L).map Prod.fst).Nodup := by
  induction L generalizing m with
  | nil => exact h
  | cons a L' ih =>
      show ((indexAddAll (indexAdd m a eid) eid L').map Prod.fst).Nodup
      exact ih (nodupkeys_aset _ _ h)

theorem nodupkeys_indexDelAll {m : JMap NodeId (List EdgeId)} (eid : EdgeId)
    (L : List NodeId) (h : (m.map Prod.fst).Nodup) :
    ((indexDelAll m eid L).map Prod.fst).Nodup := by
  induction L generalizing m with
  | nil => exact h
  | cons a L' ih =>
      rcases hma : aget m a with _ | s
      · have hstep : indexDelAll m eid (a :: L') = indexDelAll m eid L' := by
          show indexDelAll (match aget m a with
            | some s => aset m a (sdel s eid)
            | none => m) eid L' = _
          rw [hma]
        rw [hstep]
        exact ih h
      · have hstep : indexDelAll m eid (a :: L') =
            indexDelAll (aset m a (sdel s eid)) eid L' := by
          show indexDelAll (match aget m a with
            | some s => aset m a (sdel s eid)
            | none => m) eid L' = _
          rw [hma]
        rw [hstep]
        exact ih (nodupkeys_aset _ _ h)

/-- Entry growth: existing members of an index entry survive `indexAddAll`. -/
theorem entry_mono_indexAddAll {X : JMap NodeId (List EdgeId)} {eid : EdgeId}
    {L : List NodeId} {nid : NodeId} {eid0 : EdgeId}
    (h : eid0 ∈ (aget X nid).getD []) :
    eid0 ∈ (aget (indexAddAll X eid L) nid).getD [] := by
  rw [aget_indexAddAll]
  by_cases hL : nid ∈ L
  · simp only [hL, if_pos]
    simpa [Option.getD] using mem_sadd.2 (Or.inl h)
  · simpa [hL] using h

/-- `indexAddAll` puts `eid` into the entry of every node id of `L`. -/
theorem self_mem_entry_indexAddAll (X : JMap NodeId (List EdgeId))
    (eid : EdgeId) {L : List NodeId} {nid : NodeId} (hL : nid ∈ L) :
    eid ∈ (aget (indexAddAll X eid L) nid).getD [] := by
  rw [aget_indexAddAll]
  simp only [hL, if_pos]
  simpa [Option.getD] using mem_sadd.2 (Or.inr rfl)

/-- Origin of a member of an `indexAddAll` entry: either the added edge id on
a listed node, or a member of the old entry. -/
theorem mem_entry_indexAddAll {X : JMap NodeId (List EdgeId)} {eid : EdgeId}
    {L : List NodeId} {nid : NodeId} {s : List EdgeId} {eid0 : EdgeId}
    (hs : aget (indexAddAll X eid L) nid = some s) (h0 : eid0 ∈ s) :
    (eid0 = eid ∧ nid ∈ L) ∨ (∃ s0, aget X nid = some s0 ∧ eid0 ∈ s0) := by
  rw [aget_indexAddAll] at hs
  by_cases hL : nid ∈ L
  · rw [if_pos hL] at hs
    rcases hs with hs
    injection hs with hs
    subst hs
    rcases mem_sadd.1 h0 with h | h
    · rcases hx : aget X nid with _ | s0
      · rw [hx] at h
        simp at h
      · rw [hx] at h
        exact Or.inr ⟨s0, rfl, by simpa using h⟩
    · exact Or.inl ⟨h, hL⟩
  · rw [if_neg hL] at hs
    exact Or.inr ⟨s, hs, h0⟩

/-- Origin of a member of an `indexDelAll` entry: it was in the old entry and
is not the deleted id whenever the node is listed. -/
theorem mem_entry_indexDelAll {X : JMap NodeId (List EdgeId)} {eid : EdgeId}
    {L : List NodeId} {nid : NodeId} {s : List EdgeId} {eid0 : EdgeId}
    (hs : aget (indexDelAll X eid L) nid = some s) (h0 : eid0 ∈ s) :
    ∃ s0, aget X nid = some s0 ∧ eid0 ∈ s0 ∧ (nid ∈ L → eid0 ≠ eid) := by
  rw [aget_indexDelAll] at hs
  rcases hx : aget X nid with _ | s0
  · rw [hx] at hs
    exact absurd hs (by simp)
  · rw [hx] at hs
    have hs2 : some (if nid ∈ L then sdel s0 eid else s0) = some s := hs
    injection hs2 with hs
    by_cases hL : nid ∈ L
    · rw [if_pos hL] at hs
      subst hs
      rcases mem_sdel.1 h0 with ⟨h1, h2⟩
      exact ⟨s0, rfl, h1, fun _ => h2⟩
    · rw [if_neg hL] at hs
      subst hs
      exact ⟨s0, rfl, h0, fun h => absurd h hL⟩

theorem exists_of_mem_getD {α : Type} {o : Option (List α)} {x : α}
    (h : x ∈ o.getD []) : ∃ s, o = some s ∧ x ∈ s := by
  cases o with
  | none => simp at h
  | some s => exact ⟨s, rfl, h⟩

-- ── Computation lemmas for the match-based handlers ──────────────────────────

theorem onMouseUp_no_target {net : Net} {drag : Drag} {hits : List NodeId}
    {ts : Nat} (h : hits.find? (fun fid => fid ≠ drag.nodeId) = none) :
    onMouseUp net drag hits ts = net := by
  unfold onMouseUp
  rw [h]

theorem onMouseUp_target_stale {net : Net} {drag : Drag} {hits : List NodeId}
    {ts : Nat} {toId : NodeId}
    (hfind : hits.find? (fun fid => fid ≠ drag.nodeId) = some toId)
    (hnode : aget net.nodes drag.nodeId = none) :
    onMouseUp net drag hits ts =
      { net with
        edges := aset net.edges (EdgeId.conn ts)
          ⟨EdgeId.conn ts, [drag.nodeId, toId]⟩
        nodeEdgeIndex := indexAddAll net.nodeEdgeIndex (EdgeId.conn ts)
          [drag.nodeId, toId] } := by
  unfold onMouseUp
  rw [hfind, hnode]

theorem onMouseUp_target_live {net : Net} {drag : Drag} {hits : List NodeId}
    {ts : Nat} {toId : NodeId} {node : Node}
    (hfind : hits.find? (fun fid => fid ≠ drag.nodeId) = some toId)
    (hnode : aget net.nodes drag.nodeId = some node) :
    onMouseUp net drag hits ts =
      { nodes := aset net.nodes drag.nodeId
          { node with lng := drag.origLng, lat := drag.origLat }
        edges := aset net.edges (EdgeId.conn ts)
          ⟨EdgeId.conn ts, [drag.nodeId, toId]⟩
        nodeEdgeIndex := indexAddAll net.nodeEdgeIndex (EdgeId.conn ts)
          [drag.nodeId, toId] } := by
  unfold onMouseUp
  rw [hfind, hnode]

theorem dragMove_stale {net : Net} {c : Caches} {nodeId : NodeId}
    {lng lat : ℚ} (h : aget net.nodes nodeId = none) :
    dragMove net c nodeId lng lat = (net, c) := by
  unfold dragMove
  rw [h]

theorem dragMove_live {net : Net} {c : Caches} {nodeId : NodeId}
    {lng lat : ℚ} {node : Node} (h : aget net.nodes nodeId = some node) :
    dragMove net c nodeId lng lat =
      ({ net with nodes := aset net.nodes nodeId ⟨node.id, lng, lat⟩ },
        ⟨c.nodeFC.map (fun f =>
            if f.id = nodeId then ⟨f.id, (lng, lat)⟩ else f),
          c.edgeFC.map (fun f =>
            if f.id ∈ entryOf net nodeId then
              (match aget net.edges f.id with
              | some edge =>
                  ⟨f.id, edgeCoords (aset net.nodes nodeId
                    ⟨node.id, lng, lat⟩) edge⟩
              | none => f)
            else f)⟩) := by
  unfold dragMove
  rw [h]

theorem splitEdge_absent {net : Net} {edgeId : EdgeId} {lng lat : ℚ}
    {ts : Nat} (h : aget net.edges edgeId = none) :
    splitEdge net edgeId lng lat ts = net := by
  unfold splitEdge
  rw [h]

theorem splitEdge_present {net : Net} {edgeId : EdgeId} {lng lat : ℚ}
    {ts : Nat} {edge : Edge} (h : aget net.edges edgeId = some edge) :
    splitEdge net edgeId lng lat ts =
      { nodes := aset net.nodes (NodeId.split ts) ⟨NodeId.split ts, lng, lat⟩
        edges := aset (aset (adel net.edges edgeId) (EdgeId.splitA ts)
            ⟨EdgeId.splitA ts, edge.nodeIds.take
                (closestSegmentIdx edge.nodeIds net.nodes lng lat + 1) ++
              [NodeId.split ts]⟩)
          (EdgeId.splitB ts)
          ⟨EdgeId.splitB ts, NodeId.split ts :: edge.nodeIds.drop
            (closestSegmentIdx edge.nodeIds net.nodes lng lat + 1)⟩
        nodeEdgeIndex := indexAddAll
          (indexAddAll
            (aset (indexDelAll net.nodeEdgeIndex edgeId edge.nodeIds)
              (NodeId.split ts) [EdgeId.splitA ts, EdgeId.splitB ts])
            (EdgeId.splitA ts)
            (edge.nodeIds.take
                (closestSegmentIdx edge.nodeIds net.nodes lng lat + 1) ++
              [NodeId.split ts]))
          (EdgeId.splitB ts)
          (NodeId.split ts :: edge.nodeIds.drop
            (closestSegmentIdx edge.nodeIds net.nodes lng lat + 1)) } := by
  unfold splitEdge
  rw [h]

-- ── Invariant preservation ───────────────────────────────────────────────────

/-- Core of every edge-creating path (`parseNetwork`'s ring loop, the
mouse-up connect): setting a fresh edge id and running the indexing loop over
its node ids preserves all edge/index invariants. -/
theorem graphInv_addEdge (eid : EdgeId) (L : List NodeId)
    {E : JMap EdgeId Edge} {X : JMap NodeId (List EdgeId)}
    (hEid : ∀ p ∈ E, p.2.id = p.1)
    (hEnd : (E.map Prod.fst).Nodup)
    (hXnd : (X.map Prod.fst).Nodup)
    (hIdx : ∀ p ∈ E, ∀ nid ∈ p.2.nodeIds, p.1 ∈ (aget X nid).getD [])
    (hSnd : ∀ nid s, aget X nid = some s → ∀ e0 ∈ s,
        ∃ e, aget E e0 = some e ∧ nid ∈ e.nodeIds)
    (hfresh : aget E eid = none) :
    (∀ p ∈ aset E eid ⟨eid, L⟩, p.2.id = p.1) ∧
    ((aset E eid ⟨eid, L⟩).map Prod.fst).Nodup ∧
    ((indexAddAll X eid L).map Prod.fst).Nodup ∧
    (∀ p ∈ aset E eid ⟨eid, L⟩, ∀ nid ∈ p.2.nodeIds,
        p.1 ∈ (aget (indexAddAll X eid L) nid).getD []) ∧
    (∀ nid s, aget (indexAddAll X eid L) nid = some s → ∀ e0 ∈ s,
        ∃ e, aget (aset E eid ⟨eid, L⟩) e0 = some e ∧ nid ∈ e.nodeIds) := by
  refine ⟨?_, nodupkeys_aset _ _ hEnd, nodupkeys_indexAddAll _ _ hXnd, ?_, ?_⟩
  · intro p hp
    rcases mem_aset hp with h | h
    · subst h
      rfl
    · exact hEid p h
  · intro p hp nid hnid
    rcases mem_aset hp with h | h
    · subst h
      exact self_mem_entry_indexAddAll X eid hnid
    · exact entry_mono_indexAddAll (hIdx p h nid hnid)
  · intro nid s hs e0 h0
    rcases mem_entry_indexAddAll hs h0 with ⟨he, hL⟩ | ⟨s0, hs0, h00⟩
    · rw [he]
      exact ⟨⟨eid, L⟩, aget_aset_self _ _ _, hL⟩
    · rcases hSnd nid s0 hs0 e0 h00 with ⟨e, he, hn⟩
      have hne : e0 ≠ eid := by
        intro hcontra
        rw [hcontra, hfresh] at he
        cases he
      exact ⟨e, by rw [aget_aset_ne _ _ hne]; exact he, hn⟩

/-- `onMouseUp` preserves the graph invariants whenever the connect edge id
is fresh (`Date.now()` timestamps are fresh in practice). -/
theorem netWf_onMouseUp (net : Net) (drag : Drag) (hits : List NodeId)
    (ts : Nat) (h : NetWf net)
    (hfresh : aget net.edges (EdgeId.conn ts) = none) :
    NetWf (onMouseUp net drag hits ts) := by
  obtain ⟨hNnd, hNid, hEnd, hEid, hXnd, hIdx, hSnd⟩ := h
  simp only [entryOf] at hIdx
  unfold NetWf
  rcases hfind : hits.find? (fun fid => fid ≠ drag.nodeId) with _ | toId
  · rw [onMouseUp_no_target hfind]
    exact ⟨hNnd, hNid, hEnd, hEid, hXnd, hIdx, hSnd⟩
  · have hcore := graphInv_addEdge (EdgeId.conn ts) [drag.nodeId, toId]
      hEid hEnd hXnd hIdx hSnd hfresh
    rcases hnode : aget net.nodes drag.nodeId with _ | node
    · rw [onMouseUp_target_stale hfind hnode]
      dsimp only
      exact ⟨hNnd, hNid, hcore.2.1, hcore.1, hcore.2.2.1,
        hcore.2.2.2.1, hcore.2.2.2.2⟩
    · rw [onMouseUp_target_live hfind hnode]
      dsimp only
      have hmem := mem_of_aget_eq_some hnode
      refine ⟨?_, ?_, hcore.2.1, hcore.1, hcore.2.2.1,
        hcore.2.2.2.1, hcore.2.2.2.2⟩
      · show ((aset net.nodes drag.nodeId
            { node with lng := drag.origLng, lat := drag.origLat }).map
              Prod.fst).Nodup
        rw [keys_aset_of_aget_isSome _ (by rw [hnode]; rfl)]
        exact hNnd
      · intro p hp
        rcases mem_aset hp with h | h
        · subst h
          exact hNid (drag.nodeId, node) hmem
        · exact hNid p h

/-- The drag hot path (`onMouseMove`) only rewrites a node's position; all
graph invariants are preserved. -/
theorem netWf_dragMove (net : Net) (c : Caches) (nodeId : NodeId)
    (lng lat : ℚ) (h : NetWf net) :
    NetWf (dragMove net c nodeId lng lat).1 := by
  obtain ⟨hNnd, hNid, hEnd, hEid, hXnd, hIdx, hSnd⟩ := h
  rcases hnode : aget net.nodes nodeId with _ | node
  · rw [dragMove_stale hnode]
    exact ⟨hNnd, hNid, hEnd, hEid, hXnd, hIdx, hSnd⟩
  · rw [dragMove_live hnode]
    have hmem := mem_of_aget_eq_some hnode
    unfold NetWf
    dsimp only
    refine ⟨?_, ?_, hEnd, hEid, hXnd, hIdx, hSnd⟩
    · rw [keys_aset_of_aget_isSome _ (by rw [hnode]; rfl)]
      exact hNnd
    · intro p hp
      rcases mem_aset hp with h | h
      · subst h
        exact hNid (nodeId, node) hmem
      · exact hNid p h

theorem aget_mapval {κ τ σ : Type} [DecidableEq κ] (m : JMap κ τ)
    (g : κ × τ → σ) (k : κ) :
    aget (m.map (fun q => (q.1, g q))) k =
      (aget m k).map (fun v => g (k, v)) := by
  induction m with
  | nil => simp [aget]
  | cons q rest ih =>
      obtain ⟨a, b⟩ := q
      by_cases ha : a = k
      · subst ha
        simp [aget]
      · simp [aget, ha, ih]

theorem keys_mapval {κ τ σ : Type} (m : JMap κ τ) (g : κ × τ → σ) :
    (m.map (fun q => (q.1, g q))).map Prod.fst = m.map Prod.fst := by
  induction m with
  | nil => simp
  | cons q rest ih => simp [ih]

theorem sublist_foldl_adel {κ τ : Type} [DecidableEq κ] (L : List κ)
    (m : JMap κ τ) :
    (L.foldl (fun m' x => adel m' x) m).Sublist m := by
  induction L generalizing m with
  | nil => simp
  | cons a L' ih =>
      show (L'.foldl (fun m' x => adel m' x) (adel m a)).Sublist m
      exact (ih (adel m a)).trans (sublist_adel m a)

theorem nodupkeys_foldl_adel {κ τ : Type} [DecidableEq κ] (L : List κ)
    {m : JMap κ τ} (h : (m.map Prod.fst).Nodup) :
    ((L.foldl (fun m' x => adel m' x) m).map Prod.fst).Nodup :=
  ((sublist_foldl_adel L m).map Prod.fst).nodup h

/-- `deleteNode` preserves the graph invariants unconditionally. -/
theorem netWf_deleteNode (net : Net) (nodeId : NodeId) (h : NetWf net) :
    NetWf (deleteNode net nodeId) := by
  obtain ⟨hNnd, hNid, hEnd, hEid, hXnd, hIdx, hSnd⟩ := h
  simp only [entryOf] at hIdx
  unfold deleteNode NetWf entryOf
  dsimp only
  have hend' : ((((aget net.nodeEdgeIndex nodeId).getD []).foldl
      (fun m eid => adel m eid) net.edges).map Prod.fst).Nodup :=
    nodupkeys_foldl_adel _ hEnd
  refine ⟨nodupkeys_adel _ hNnd, ?_, hend', ?_, ?_, ?_, ?_⟩
  · intro p hp
    exact hNid p (mem_adel.1 hp).1
  · intro p hp
    exact hEid p ((sublist_foldl_adel _ _).subset hp)
  · refine nodupkeys_adel _ ?_
    rw [keys_mapval]
    exact hXnd
  · -- every surviving edge is still indexed under each of its node ids
    intro p hp nid hnid
    have hpe : aget (((aget net.nodeEdgeIndex nodeId).getD []).foldl
        (fun m eid => adel m eid) net.edges) p.1 = some p.2 :=
      aget_eq_some_of_mem_nodupkeys hend' hp
    rw [aget_foldl_adel] at hpe
    by_cases hmemc : p.1 ∈ (aget net.nodeEdgeIndex nodeId).getD []
    · rw [if_pos hmemc] at hpe
      cases hpe
    · rw [if_neg hmemc] at hpe
      have hpE : p ∈ net.edges := (sublist_foldl_adel _ _).subset hp
      have hne : nid ≠ nodeId := by
        intro hcontra
        exact hmemc (hcontra ▸ hIdx p hpE nid hnid)
      rw [aget_adel_ne _ hne, aget_mapval]
      rcases exists_of_mem_getD (hIdx p hpE nid hnid) with ⟨s0, hs0, hmem0⟩
      rw [hs0]
      exact mem_foldl_sdel _ _ _ |>.2 ⟨hmem0, hmemc⟩
  · -- every index entry still points at a surviving incident edge
    intro nid s hs e0 h0
    by_cases hne : nid = nodeId
    · rw [hne, aget_adel_self] at hs
      cases hs
    · rw [aget_adel_ne _ hne, aget_mapval] at hs
      rcases hx : aget net.nodeEdgeIndex nid with _ | s0
      · rw [hx] at hs
        cases hs
      · rw [hx] at hs
        have hs2 : some (((aget net.nodeEdgeIndex nodeId).getD []).foldl
            sdel s0) = some s := hs
        injection hs2 with hs2
        rw [← hs2] at h0
        rcases (mem_foldl_sdel _ _ _).1 h0 with ⟨h01, h02⟩
        rcases hSnd nid s0 hx e0 h01 with ⟨e, he, hn⟩
        refine ⟨e, ?_, hn⟩
        rw [aget_foldl_adel, if_neg h02]
        exact he

/-- `splitEdge` preserves the graph invariants whenever the split-generated
ids are fresh (`Date.now()` timestamps are fresh in practice). -/
theorem netWf_splitEdge (net : Net) (edgeId : EdgeId) (lng lat : ℚ) (ts : Nat)
    (h : NetWf net)
    (hfA : aget net.edges (EdgeId.splitA ts) = none)
    (hfB : aget net.edges (EdgeId.splitB ts) = none)
    (hfN : ∀ p ∈ net.edges, NodeId.split ts ∉ p.2.nodeIds) :
    NetWf (splitEdge net edgeId lng lat ts) := by
  obtain ⟨hNnd, hNid, hEnd, hEid, hXnd, hIdx, hSnd⟩ := h
  simp only [entryOf] at hIdx
  unfold NetWf entryOf
  rcases hedge : aget net.edges edgeId with _ | edge
  · rw [splitEdge_absent hedge]
    exact ⟨hNnd, hNid, hEnd, hEid, hXnd, hIdx, hSnd⟩
  · rw [splitEdge_present hedge]
    dsimp only
    set idx := closestSegmentIdx edge.nodeIds net.nodes lng lat with hidx
    set LA := edge.nodeIds.take (idx + 1) ++ [NodeId.split ts] with hLA
    set LB := NodeId.split ts :: edge.nodeIds.drop (idx + 1) with hLB
    set E1 := adel net.edges edgeId with hE1
    set E2 := aset E1 (EdgeId.splitA ts) ⟨EdgeId.splitA ts, LA⟩ with hE2
    set E3 := aset E2 (EdgeId.splitB ts) ⟨EdgeId.splitB ts, LB⟩ with hE3
    set X1 := indexDelAll net.nodeEdgeIndex edgeId edge.nodeIds with hX1
    set X2 := aset X1 (NodeId.split ts) [EdgeId.splitA ts, EdgeId.splitB ts]
      with hX2
    set X3 := indexAddAll X2 (EdgeId.splitA ts) LA with hX3
    set X4 := indexAddAll X3 (EdgeId.splitB ts) LB with hX4
    have haidbid : EdgeId.splitA ts ≠ EdgeId.splitB ts := by
      intro hc
      cases hc
    have hE3a : aget E3 (EdgeId.splitA ts) = some ⟨EdgeId.splitA ts, LA⟩ := by
      rw [hE3, aget_aset_ne _ _ haidbid, hE2, aget_aset_self]
    have hE3b : aget E3 (EdgeId.splitB ts) = some ⟨EdgeId.splitB ts, LB⟩ := by
      rw [hE3, aget_aset_self]
    have hE3old : ∀ e0, e0 ≠ edgeId → e0 ≠ EdgeId.splitA ts →
        e0 ≠ EdgeId.splitB ts → aget E3 e0 = aget net.edges e0 := by
      intro e0 h1 h2 h3
      rw [hE3, aget_aset_ne _ _ h3, hE2, aget_aset_ne _ _ h2, hE1,
        aget_adel_ne _ h1]
    refine ⟨nodupkeys_aset _ _ hNnd, ?_,
      nodupkeys_aset _ _ (nodupkeys_aset _ _ (nodupkeys_adel _ hEnd)), ?_,
      nodupkeys_indexAddAll _ _ (nodupkeys_indexAddAll _ _
        (nodupkeys_aset _ _ (nodupkeys_indexDelAll _ _ hXnd))), ?_, ?_⟩
    · -- node values keep their keys as ids
      intro p hp
      rcases mem_aset hp with h | h
      · subst h
        rfl
      · exact hNid p h
    · -- edge values keep their keys as ids
      intro p hp
      rcases mem_aset hp with h | h
      · subst h
        rfl
      · rcases mem_aset h with h' | h'
        · subst h'
          rfl
        · exact hEid p (mem_adel.1 h').1
    · -- every edge of the result is indexed under each of its node ids
      intro p hp nid hnid
      rcases mem_aset hp with h | h
      · subst h
        exact self_mem_entry_indexAddAll X3 (EdgeId.splitB ts) hnid
      · rcases mem_aset h with h' | h'
        · subst h'
          exact entry_mono_indexAddAll
            (self_mem_entry_indexAddAll X2 (EdgeId.splitA ts) hnid)
        · rcases mem_adel.1 h' with ⟨hpE, hpne⟩
          have hnidN : nid ≠ NodeId.split ts := by
            intro hc
            exact hfN p hpE (hc ▸ hnid)
          have h0 := hIdx p hpE nid hnid
          rcases exists_of_mem_getD h0 with ⟨s0, hx0, hm0⟩
          have hX1n : p.1 ∈ (aget X1 nid).getD [] := by
            rw [hX1, aget_indexDelAll, hx0]
            by_cases hL : nid ∈ edge.nodeIds
            · simp only [hL, if_pos, Option.getD_some, Option.map_some']
              exact mem_sdel.2 ⟨hm0, hpne⟩
            · simp only [hL, if_neg, Option.getD_some, Option.map_some',
                if_false]
              exact hm0
          have hX2n : p.1 ∈ (aget X2 nid).getD [] := by
            rw [hX2, aget_aset_ne _ _ hnidN]
            exact hX1n
          exact entry_mono_indexAddAll (entry_mono_indexAddAll hX2n)
    · -- every index entry points at an existing incident edge
      intro nid s hs e0 h0
      rcases mem_entry_indexAddAll hs h0 with ⟨he0, hnL⟩ | ⟨s3, hs3, h03⟩
      · rw [he0]
        exact ⟨⟨EdgeId.splitB ts, LB⟩, hE3b, hnL⟩
      · rcases mem_entry_indexAddAll hs3 h03 with ⟨he0, hnL⟩ | ⟨s2, hs2, h02⟩
        · rw [he0]
          exact ⟨⟨EdgeId.splitA ts, LA⟩, hE3a, hnL⟩
        · by_cases hnN : nid = NodeId.split ts
          · subst hnN
            rw [hX2, aget_aset_self] at hs2
            injection hs2 with hs2
            rw [← hs2] at h02
            simp only [List.mem_cons, List.not_mem_nil, or_false] at h02
            rcases h02 with h02 | h02
            · rw [h02]
              refine ⟨⟨EdgeId.splitA ts, LA⟩, hE3a, ?_⟩
              rw [hLA]
              exact List.mem_append.2 (Or.inr (by simp))
            · rw [h02]
              refine ⟨⟨EdgeId.splitB ts, LB⟩, hE3b, ?_⟩
              rw [hLB]
              exact List.mem_cons_self _ _
          · rw [hX2, aget_aset_ne _ _ hnN, hX1] at hs2
            rcases mem_entry_indexDelAll hs2 h02 with ⟨s0, hx0, h00, hcond⟩
            rcases hSnd nid s0 hx0 e0 h00 with ⟨e, heq, hni⟩
            have hne1 : e0 ≠ edgeId := by
              intro hc
              rw [hc, hedge] at heq
              injection heq with heq
              apply hcond _ hc
              rw [← heq] at hni
              exact hni
            have hne2 : e0 ≠ EdgeId.splitA ts := by
              intro hc
              rw [hc, hfA] at heq
              cases heq
            have hne3 : e0 ≠ EdgeId.splitB ts := by
              intro hc
              rw [hc, hfB] at heq
              cases heq
            refine ⟨e, ?_, hni⟩
            rw [hE3old e0 hne1 hne2 hne3]
            exact heq

-- ── The parse loop establishes the invariants ────────────────────────────────

/-- The invariant of `parseNetwork`'s fold state: ids allocated so far are
`parsed k` below the counters, pairwise distinct, and the edge/index halves
satisfy the adjacency invariants. -/
def PInv (s : ParseState) : Prop :=
  (s.byKey.map (fun p => p.2.id)).Nodup ∧
  (∀ p ∈ s.byKey, ∃ k, k < s.nc ∧ p.2.id = NodeId.parsed k) ∧
  (s.edges.map Prod.fst).Nodup ∧
  (∀ p ∈ s.edges, p.2.id = p.1) ∧
  (∀ p ∈ s.edges, ∃ k, k < s.ec ∧ p.1 = EdgeId.parsed k) ∧
  (s.nodeEdgeIndex.map Prod.fst).Nodup ∧
  (∀ p ∈ s.edges, ∀ nid ∈ p.2.nodeIds,
      p.1 ∈ (aget s.nodeEdgeIndex nid).getD []) ∧
  (∀ nid t, aget s.nodeEdgeIndex nid = some t → ∀ e0 ∈ t,
      ∃ e, aget s.edges e0 = some e ∧ nid ∈ e.nodeIds)

theorem getNode_fields (s : ParseState) (lng lat : ℚ) :
    (getNode s lng lat).2.edges = s.edges ∧
    (getNode s lng lat).2.ec = s.ec ∧
    (getNode s lng lat).2.nodeEdgeIndex = s.nodeEdgeIndex := by
  unfold getNode
  cases aget s.byKey (keyQ lng, keyQ lat) <;> exact ⟨rfl, rfl, rfl⟩

theorem getNode_byKey_mono {s : ParseState} (lng lat : ℚ)
    {key0 : (Bool × Nat) × (Bool × Nat)} {n0 : Node}
    (h : aget s.byKey key0 = some n0) :
    aget (getNode s lng lat).2.byKey key0 = some n0 := by
  unfold getNode
  rcases hk : aget s.byKey (keyQ lng, keyQ lat) with _ | n
  · dsimp only
    have hkey : key0 ≠ (keyQ lng, keyQ lat) := by
      intro hc
      rw [hc, hk] at h
      cases h
    rw [aget_aset_ne _ _ hkey]
    exact h
  · exact h

theorem getNode_spec (s : ParseState) (lng lat : ℚ) :
    ∃ n : Node, aget (getNode s lng lat).2.byKey (keyQ lng, keyQ lat) = some n
      ∧ (getNode s lng lat).1 = n.id := by
  unfold getNode
  rcases hk : aget s.byKey (keyQ lng, keyQ lat) with _ | n
  · dsimp only
    exact ⟨⟨NodeId.parsed s.nc, lng, lat⟩, aget_aset_self _ _ _, rfl⟩
  · exact ⟨n, hk, rfl⟩

theorem getNode_byKey_pinv {s : ParseState} (lng lat : ℚ)
    (h1 : (s.byKey.map (fun p => p.2.id)).Nodup)
    (h2 : ∀ p ∈ s.byKey, ∃ k, k < s.nc ∧ p.2.id = NodeId.parsed k) :
    ((getNode s lng lat).2.byKey.map (fun p => p.2.id)).Nodup ∧
    (∀ p ∈ (getNode s lng lat).2.byKey,
        ∃ k, k < (getNode s lng lat).2.nc ∧ p.2.id = NodeId.parsed k) := by
  unfold getNode
  rcases hk : aget s.byKey (keyQ lng, keyQ lat) with _ | n
  · dsimp only
    rw [aset_of_aget_none _ hk]
    constructor
    · rw [List.map_append, List.nodup_append]
      refine ⟨h1, by simp, ?_⟩
      intro x hx hy
      simp at hy
      rcases List.mem_map.1 hx with ⟨p, hp, hpk⟩
      rcases h2 p hp with ⟨k, hklt, hkid⟩
      rw [hpk, hy] at hkid
      injection hkid with hk2
      rw [hk2] at hklt
      exact Nat.lt_irrefl _ hklt
    · intro p hp
      rcases List.mem_append.1 hp with hp | hp
      · rcases h2 p hp with ⟨k, hklt, hkid⟩
        exact ⟨k, Nat.lt_succ_of_lt hklt, hkid⟩
      · simp at hp
        rw [hp]
        exact ⟨s.nc, Nat.lt_succ_self _, rfl⟩
  · exact ⟨h1, h2⟩

theorem resolveRing_fields (s : ParseState) (ring : List Point) :
    (resolveRing s ring).2.edges = s.edges ∧
    (resolveRing s ring).2.ec = s.ec ∧
    (resolveRing s ring).2.nodeEdgeIndex = s.nodeEdgeIndex := by
  induction ring generalizing s with
  | nil => exact ⟨rfl, rfl, rfl⟩
  | cons p rest ih =>
      have hg := getNode_fields s p.lng p.lat
      have hr := ih (getNode s p.lng p.lat).2
      exact ⟨hr.1.trans hg.1, hr.2.1.trans hg.2.1, hr.2.2.trans hg.2.2⟩

theorem resolveRing_byKey_mono {s : ParseState} (ring : List Point)
    {key0 : (Bool × Nat) × (Bool × Nat)} {n0 : Node}
    (h : aget s.byKey key0 = some n0) :
    aget (resolveRing s ring).2.byKey key0 = some n0 := by
  induction ring generalizing s with
  | nil => exact h
  | cons p rest ih => exact ih (getNode_byKey_mono p.lng p.lat h)

theorem resolveRing_byKey_pinv {s : ParseState} (ring : List Point)
    (h1 : (s.byKey.map (fun p => p.2.id)).Nodup)
    (h2 : ∀ p ∈ s.byKey, ∃ k, k < s.nc ∧ p.2.id = NodeId.parsed k) :
    ((resolveRing s ring).2.byKey.map (fun p => p.2.id)).Nodup ∧
    (∀ p ∈ (resolveRing s ring).2.byKey,
        ∃ k, k < (resolveRing s ring).2.nc ∧ p.2.id = NodeId.parsed k) := by
  induction ring generalizing s with
  | nil => exact ⟨h1, h2⟩
  | cons p rest ih =>
      have hg := getNode_byKey_pinv p.lng p.lat h1 h2
      exact ih hg.1 hg.2

theorem pinv_ringStep (s : ParseState) (ring : List Point) (h : PInv s) :
    PInv (ringStep s ring) := by
  obtain ⟨hB1, hB2, hE1, hE2, hE3, hX1, hX2, hX3⟩ := h
  have hbk := resolveRing_byKey_pinv ring hB1 hB2
  have hf := resolveRing_fields s ring
  have hE1' := hf.1 ▸ hE1
  have hE2' := hf.1 ▸ hE2
  have hE3' : ∀ p ∈ (resolveRing s ring).2.edges,
      ∃ k, k < (resolveRing s ring).2.ec ∧ p.1 = EdgeId.parsed k := by
    rw [hf.1, hf.2.1]
    exact hE3
  have hX1' := hf.2.2 ▸ hX1
  have hX2' : ∀ p ∈ (resolveRing s ring).2.edges,
      ∀ nid ∈ p.2.nodeIds,
      p.1 ∈ (aget (resolveRing s ring).2.nodeEdgeIndex nid).getD [] := by
    rw [hf.1, hf.2.2]
    exact hX2
  have hX3' : ∀ nid t, aget (resolveRing s ring).2.nodeEdgeIndex nid = some t →
      ∀ e0 ∈ t, ∃ e, aget (resolveRing s ring).2.edges e0 = some e ∧
        nid ∈ e.nodeIds := by
    rw [hf.1, hf.2.2]
    exact hX3
  unfold ringStep
  dsimp only
  by_cases hlen : (resolveRing s ring).1.length < 2
  · rw [if_pos hlen]
    exact ⟨hbk.1, hbk.2, hE1', hE2', hE3', hX1', hX2', hX3'⟩
  · rw [if_neg hlen]
    have hfresh : aget (resolveRing s ring).2.edges
        (EdgeId.parsed (resolveRing s ring).2.ec) = none := by
      rw [aget_eq_none_iff]
      intro p hp
      rcases hE3' p hp with ⟨k, hklt, hkid⟩
      rw [hkid]
      intro hc
      injection hc with hc
      rw [hc] at hklt
      exact Nat.lt_irrefl _ hklt
    have hcore := graphInv_addEdge (EdgeId.parsed (resolveRing s ring).2.ec)
      (resolveRing s ring).1 hE2' hE1' hX1' hX2' hX3' hfresh
    refine ⟨hbk.1, hbk.2, hcore.2.1, hcore.1, ?_, hcore.2.2.1,
      hcore.2.2.2.1, hcore.2.2.2.2⟩
    intro p hp
    rcases mem_aset hp with h | h
    · rw [h]
      exact ⟨(resolveRing s ring).2.ec, Nat.lt_succ_self _, rfl⟩
    · rcases hE3' p h with ⟨k, hklt, hkid⟩
      exact ⟨k, Nat.lt_succ_of_lt hklt, hkid⟩

theorem pinv_foldl (rings : List (List Point)) (s : ParseState) (h : PInv s) :
    PInv (rings.foldl ringStep s) := by
  induction rings generalizing s with
  | nil => exact h
  | cons ring rest ih => exact ih _ (pinv_ringStep s ring h)

theorem pinv_parseState (rings : List (List Point)) :
    PInv (parseState rings) := by
  refine pinv_foldl rings _ ?_
  refine ⟨by simp, by simp, by simp, by simp, by simp, by simp, by simp, ?_⟩
  intro nid t h
  simp [aget] at h

/-- `parseNetwork` establishes the graph invariants. -/
theorem netWf_parseNetwork (rings : List (List Point)) :
    NetWf (parseNetwork rings) := by
  obtain ⟨hB1, hB2, hE1, hE2, hE3, hX1, hX2, hX3⟩ := pinv_parseState rings
  unfold parseNetwork NetWf entryOf
  dsimp only
  refine ⟨?_, ?_, hE1, hE2, hX1, hX2, hX3⟩
  · rw [List.map_map]
    exact hB1
  · intro p hp
    rcases List.mem_map.1 hp with ⟨q, hq, hqp⟩
    rw [← hqp]

-- ── Reachable editor states ──────────────────────────────────────────────────

/-- Graph states the editor can reach: an initial parse followed by any
sequence of drag moves, mouse-up connects, edge splits, and node deletions.
The connect and split steps carry freshness of their `Date.now()`-derived
identifiers as side conditions, which is how the code's timestamp-based id
scheme behaves when operations happen at distinct milliseconds. -/
inductive Reachable : Net → Prop where
  | load (rings : List (List Point)) : Reachable (parseNetwork rings)
  | move (net : Net) (c : Caches) (nodeId : NodeId) (lng lat : ℚ) :
      Reachable net → Reachable (dragMove net c nodeId lng lat).1
  | connect (net : Net) (drag : Drag) (hits : List NodeId) (ts : Nat) :
      Reachable net → aget net.edges (EdgeId.conn ts) = none →
      Reachable (onMouseUp net drag hits ts)
  | split (net : Net) (edgeId : EdgeId) (lng lat : ℚ) (ts : Nat) :
      Reachable net →
      aget net.edges (EdgeId.splitA ts) = none →
      aget net.edges (EdgeId.splitB ts) = none →
      (∀ p ∈ net.edges, NodeId.split ts ∉ p.2.nodeIds) →
      Reachable (splitEdge net edgeId lng lat ts)
  | delete (net : Net) (nodeId : NodeId) :
      Reachable net → Reachable (deleteNode net nodeId)

theorem netWf_reachable {net : Net} (h : Reachable net) : NetWf net := by
  induction h with
  | load rings => exact netWf_parseNetwork rings
  | move net c nodeId lng lat _ ih =>
      exact netWf_dragMove net c nodeId lng lat ih
  | connect net drag hits ts _ hfresh ih =>
      exact netWf_onMouseUp net drag hits ts ih hfresh
  | split net edgeId lng lat ts _ hfA hfB hfN ih =>
      exact netWf_splitEdge net edgeId lng lat ts ih hfA hfB hfN
  | delete net nodeId _ ih =>
      exact netWf_deleteNode net nodeId ih

-- ── Claim C1 ─────────────────────────────────────────────────────────────────

/-- C1.  Adjacency-index invariant: after initial load (`parseNetwork`) and
after each mutating operation (drag-connect edge creation in `onMouseUp`,
`splitEdge`, `deleteNode` — drag moves included), every edge's node ids map
in `nodeEdgeIndex` to a set containing that edge's identity, and every edge
identity appearing in any index entry names an edge present in the edge
table. -/
theorem c1_adjacency_index_invariant (net : Net) (h : Reachable net) :
    ClaimedInv net := by
  obtain ⟨_, _, _, hEid, hXnd, hIdx, hSnd⟩ := netWf_reachable h
  constructor
  · intro p hp nid hnid
    have hm := hIdx p hp nid hnid
    simp only [entryOf] at hm
    rcases exists_of_mem_getD hm with ⟨s, hs, hm'⟩
    refine ⟨s, hs, ?_⟩
    rw [hEid p hp]
    exact hm'
  · intro q hq eid h0
    have hqs : aget net.nodeEdgeIndex q.1 = some q.2 :=
      aget_eq_some_of_mem_nodupkeys hXnd hq
    rcases hSnd q.1 q.2 hqs eid h0 with ⟨e, he, _⟩
    rw [he]
    rfl

/-- Witness for C1: the invariant holds for a freshly loaded two-vertex
line, reached by `Reachable.load`. -/
theorem c1_adjacency_index_invariant_witness :
    ClaimedInv (parseNetwork [[⟨0, 0⟩, ⟨1, 0⟩]]) :=
  c1_adjacency_index_invariant _ (Reachable.load [[⟨0, 0⟩, ⟨1, 0⟩]])

-- ── Claim C2 ─────────────────────────────────────────────────────────────────

/-- Least-argmin behaviour of the `bestD` fold: starting from
`(0, Infinity)` and keeping a strictly smaller distance, the fold over
`range n` returns the lowest index achieving the minimum of `f`. -/
theorem argmin_foldl_range (f : Nat → ℚ) :
    ∀ n, 0 < n →
    ∃ b : Nat, ∃ d : ℚ,
      (List.range n).foldl
        (fun acc i =>
          if ((f i : ℚ) : WithTop ℚ) < acc.2 then (i, ((f i : ℚ) : WithTop ℚ))
          else acc)
        (0, (⊤ : WithTop ℚ)) = (b, ((d : ℚ) : WithTop ℚ)) ∧
      d = f b ∧ b < n ∧ (∀ j, j < n → f b ≤ f j) ∧ (∀ j, j < b → f b < f j) := by
  intro n
  induction n with
  | zero => intro h; cases h
  | succ m ih =>
      intro _
      rw [List.range_succ, List.foldl_append]
      by_cases hm : 0 < m
      · rcases ih hm with ⟨b, d, heq, hdb, hbm, hmin, hstrict⟩
        rw [heq]
        dsimp only [List.foldl]
        by_cases hlt : ((f m : ℚ) : WithTop ℚ) < ((d : ℚ) : WithTop ℚ)
        · rw [if_pos hlt]
          have hfm : f m < d := by exact_mod_cast hlt
          refine ⟨m, f m, rfl, rfl, Nat.lt_succ_self _, ?_, ?_⟩
          · intro j hj
            rcases Nat.lt_succ_iff_lt_or_eq.1 hj with hj | hj
            · exact le_of_lt (lt_of_lt_of_le (hdb ▸ hfm) (hmin j hj))
            · rw [hj]
          · intro j hj
            exact lt_of_lt_of_le (hdb ▸ hfm) (hmin j hj)
        · rw [if_neg hlt]
          have hge : d ≤ f m := by
            have h2 : ((d : ℚ) : WithTop ℚ) ≤ ((f m : ℚ) : WithTop ℚ) :=
              not_lt.1 hlt
            exact_mod_cast h2
          refine ⟨b, d, rfl, hdb, Nat.lt_succ_of_lt hbm, ?_, hstrict⟩
          intro j hj
          rcases Nat.lt_succ_iff_lt_or_eq.1 hj with hj | hj
          · exact hmin j hj
          · rw [hj]
            exact hdb ▸ hge
      · have hm0 : m = 0 := Nat.eq_zero_of_not_pos hm
        subst hm0
        refine ⟨0, f 0, ?_, rfl, Nat.lt_succ_self _, ?_, ?_⟩
        · simp [WithTop.coe_lt_top]
        · intro j hj
          interval_cases j
          exact le_refl _
        · intro j hj
          cases hj

theorem midD_step_eq {nodeIds : List NodeId} {nodes : JMap NodeId Node}
    {lng lat : ℚ}
    (hres : ∀ nid ∈ nodeIds, (aget nodes nid).isSome) :
    ∀ acc : Nat × WithTop ℚ, ∀ i ∈ List.range (nodeIds.length - 1),
      (fun acc i =>
        match (nodeIds[i]?).bind (aget nodes),
            (nodeIds[i+1]?).bind (aget nodes) with
        | some a, some b =>
            let d : ℚ := ((a.lng + b.lng) / 2 - lng) ^ 2 +
              ((a.lat + b.lat) / 2 - lat) ^ 2
            if (d : WithTop ℚ) < acc.2 then (i, (d : WithTop ℚ)) else acc
        | _, _ => acc) acc i =
      (fun acc i =>
        if ((midD nodeIds nodes lng lat i : ℚ) : WithTop ℚ) < acc.2 then
          (i, ((midD nodeIds nodes lng lat i : ℚ) : WithTop ℚ))
        else acc) acc i := by
  intro acc i hi
  rw [List.mem_range] at hi
  have hi1 : i < nodeIds.length := lt_of_lt_of_le hi (Nat.sub_le _ _)
  have hi2 : i + 1 < nodeIds.length := by omega
  have ha : ∃ a, (nodeIds[i]?).bind (aget nodes) = some a := by
    rw [List.getElem?_eq_getElem hi1]
    rcases Option.isSome_iff_exists.1 (hres _ (List.getElem_mem hi1)) with ⟨a, hae⟩
    exact ⟨a, by simp [hae]⟩
  have hb : ∃ b, (nodeIds[i+1]?).bind (aget nodes) = some b := by
    rw [List.getElem?_eq_getElem hi2]
    rcases Option.isSome_iff_exists.1 (hres _ (List.getElem_mem hi2)) with ⟨b, hbe⟩
    exact ⟨b, by simp [hbe]⟩
  rcases ha with ⟨a, ha⟩
  rcases hb with ⟨b, hb⟩
  dsimp only
  rw [ha, hb]
  unfold midD
  rw [ha, hb]

/-- The closest-segment index under the all-resolved hypothesis: it is the
least argmin of the squared midpoint distance over all segment indices. -/
theorem closestSegmentIdx_argmin (nodeIds : List NodeId)
    (nodes : JMap NodeId Node) (lng lat : ℚ)
    (hlen : 2 ≤ nodeIds.length)
    (hres : ∀ nid ∈ nodeIds, (aget nodes nid).isSome) :
    closestSegmentIdx nodeIds nodes lng lat < nodeIds.length - 1 ∧
    (∀ j, j < nodeIds.length - 1 →
      midD nodeIds nodes lng lat (closestSegmentIdx nodeIds nodes lng lat) ≤
        midD nodeIds nodes lng lat j) ∧
    (∀ j, j < closestSegmentIdx nodeIds nodes lng lat →
      midD nodeIds nodes lng lat (closestSegmentIdx nodeIds nodes lng lat) <
        midD nodeIds nodes lng lat j) := by
  have hn : 0 < nodeIds.length - 1 := by omega
  rcases argmin_foldl_range (midD nodeIds nodes lng lat) _ hn with
    ⟨b, d, heq, hdb, hbm, hmin, hstrict⟩
  have hfold : closestSegmentIdx nodeIds nodes lng lat = b := by
    unfold closestSegmentIdx
    rw [List.foldl_ext _ _ _ (midD_step_eq hres), heq]
  rw [hfold]
  exact ⟨hbm, hmin, hstrict⟩

/-- C2.  Split correctness: for an existing edge whose node ids all resolve,
`splitEdge` creates the new node at exactly `(lng, lat)`, replaces the edge
with exactly the two edges `[nodeIds[0..i], N]` and `[N, nodeIds[i+1..]]`
where `i = closestSegmentIdx` is the least index minimising the squared
Euclidean distance from the split point to the segment midpoint, removes the
original edge identity, and touches no other edge.  The freshness of the
timestamp-derived ids (distinct from the split edge and absent from the
table) is hypothesised, matching `Date.now()` against parse-generated ids. -/
theorem c2_split_correctness (net : Net) (edgeId : EdgeId) (lng lat : ℚ)
    (ts : Nat) (edge : Edge)
    (hedge : aget net.edges edgeId = some edge)
    (hlen : 2 ≤ edge.nodeIds.length)
    (hres : ∀ nid ∈ edge.nodeIds, (aget net.nodes nid).isSome)
    (hneA : EdgeId.splitA ts ≠ edgeId)
    (hneB : EdgeId.splitB ts ≠ edgeId) :
    closestSegmentIdx edge.nodeIds net.nodes lng lat <
      edge.nodeIds.length - 1 ∧
    (∀ j, j < edge.nodeIds.length - 1 →
      midD edge.nodeIds net.nodes lng lat
          (closestSegmentIdx edge.nodeIds net.nodes lng lat) ≤
        midD edge.nodeIds net.nodes lng lat j) ∧
    (∀ j, j < closestSegmentIdx edge.nodeIds net.nodes lng lat →
      midD edge.nodeIds net.nodes lng lat
          (closestSegmentIdx edge.nodeIds net.nodes lng lat) <
        midD edge.nodeIds net.nodes lng lat j) ∧
    aget (splitEdge net edgeId lng lat ts).nodes (NodeId.split ts) =
      some ⟨NodeId.split ts, lng, lat⟩ ∧
    aget (splitEdge net edgeId lng lat ts).edges (EdgeId.splitA ts) =
      some ⟨EdgeId.splitA ts,
        edge.nodeIds.take (closestSegmentIdx edge.nodeIds net.nodes lng lat
          + 1) ++ [NodeId.split ts]⟩ ∧
    aget (splitEdge net edgeId lng lat ts).edges (EdgeId.splitB ts) =
      some ⟨EdgeId.splitB ts,
        NodeId.split ts :: edge.nodeIds.drop
          (closestSegmentIdx edge.nodeIds net.nodes lng lat + 1)⟩ ∧
    aget (splitEdge net edgeId lng lat ts).edges edgeId = none ∧
    (∀ e0, e0 ≠ edgeId → e0 ≠ EdgeId.splitA ts → e0 ≠ EdgeId.splitB ts →
      aget (splitEdge net edgeId lng lat ts).edges e0 =
        aget net.edges e0) := by
  have hargmin := closestSegmentIdx_argmin edge.nodeIds net.nodes lng lat
    hlen hres
  have haidbid : EdgeId.splitA ts ≠ EdgeId.splitB ts := by
    intro hc
    cases hc
  rw [splitEdge_present hedge]
  dsimp only
  refine ⟨hargmin.1, hargmin.2.1, hargmin.2.2, aget_aset_self _ _ _, ?_, ?_,
    ?_, ?_⟩
  · rw [aget_aset_ne _ _ haidbid, aget_aset_self]
  · rw [aget_aset_self]
  · rw [aget_aset_ne _ _ (fun hc => hneB hc.symm),
      aget_aset_ne _ _ (fun hc => hneA hc.symm), aget_adel_self]
  · intro e0 h1 h2 h3
    rw [aget_aset_ne _ _ h3, aget_aset_ne _ _ h2, aget_adel_ne _ h1]

/-- Witness for C2: splitting the 3-vertex polyline `[A, B, C]` of the
specification's example (A at (0,0), B at (1,0), C at (2,0)). -/
theorem c2_split_correctness_witness :
    (aget c2net.edges (EdgeId.parsed 0) =
        some ⟨EdgeId.parsed 0, [NodeId.parsed 0, NodeId.parsed 1,
          NodeId.parsed 2]⟩ ∧
      2 ≤ ([NodeId.parsed 0, NodeId.parsed 1, NodeId.parsed 2] :
        List NodeId).length ∧
      EdgeId.splitA 7 ≠ EdgeId.parsed 0 ∧
      EdgeId.splitB 7 ≠ EdgeId.parsed 0) ∧
    (closestSegmentIdx [NodeId.parsed 0, NodeId.parsed 1, NodeId.parsed 2]
        c2net.nodes (3/2) (1/10) < 2 ∧
      aget (splitEdge c2net (EdgeId.parsed 0) (3/2) (1/10) 7).edges
        (EdgeId.parsed 0) = none) := by
  constructor
  · exact ⟨by decide, by decide, by decide, by decide⟩
  · have h := c2_split_correctness c2net (EdgeId.parsed 0) (3/2) (1/10) 7
      ⟨EdgeId.parsed 0, [NodeId.parsed 0, NodeId.parsed 1, NodeId.parsed 2]⟩
      (by decide) (by decide) (by decide) (by decide) (by decide)
    exact ⟨h.1, h.2.2.2.2.2.2.1⟩

-- ── Claim C3 ─────────────────────────────────────────────────────────────────

/-- C3.  Cascade completeness of node deletion: for a node present in the
graph (with the adjacency invariant for that node, which every reachable
state satisfies), `deleteNode` removes every edge incident on the node from
the edge table, removes the deleted edge identities from every remaining
adjacency entry, removes the node and its own adjacency entry, and removes
no other node — so a neighbour left with zero incident edges stays in the
graph. -/
theorem c3_delete_cascade (net : Net) (nodeId : NodeId) (node : Node)
    (hnode : aget net.nodes nodeId = some node)
    (hIdx : ∀ p ∈ net.edges, nodeId ∈ p.2.nodeIds →
      p.1 ∈ entryOf net nodeId) :
    (∀ eid e, aget net.edges eid = some e → nodeId ∈ e.nodeIds →
      aget (deleteNode net nodeId).edges eid = none) ∧
    (∀ nid s, aget (deleteNode net nodeId).nodeEdgeIndex nid = some s →
      ∀ eid ∈ s, eid ∉ entryOf net nodeId) ∧
    aget (deleteNode net nodeId).nodes nodeId = none ∧
    aget (deleteNode net nodeId).nodeEdgeIndex nodeId = none ∧
    (∀ nid, nid ≠ nodeId →
      aget (deleteNode net nodeId).nodes nid = aget net.nodes nid) := by
  unfold deleteNode
  dsimp only
  refine ⟨?_, ?_, aget_adel_self _ _, aget_adel_self _ _, ?_⟩
  · intro eid e he hni
    have hmem : eid ∈ entryOf net nodeId :=
      hIdx (eid, e) (mem_of_aget_eq_some he) hni
    rw [aget_foldl_adel, if_pos hmem]
  · intro nid s hs eid h0
    by_cases hne : nid = nodeId
    · rw [hne, aget_adel_self] at hs
      cases hs
    · rw [aget_adel_ne _ hne, aget_mapval] at hs
      rcases hx : aget net.nodeEdgeIndex nid with _ | s0
      · rw [hx] at hs
        cases hs
      · rw [hx] at hs
        have hs2 : some ((entryOf net nodeId).foldl sdel s0) = some s := hs
        injection hs2 with hs2
        rw [← hs2] at h0
        exact ((mem_foldl_sdel _ _ _).1 h0).2
  · intro nid hne
    exact aget_adel_ne _ hne

/-- Witness for C3: deleting B from the graph with nodes `{A, B, C}` and
edges `{A–B, B–C}` leaves nodes `{A, C}`, no edges, and empty adjacency
entries for A and C. -/
theorem c3_delete_cascade_witness :
    (aget c3net.nodes (NodeId.parsed 1) = some ⟨NodeId.parsed 1, 1, 0⟩ ∧
      (∀ p ∈ c3net.edges, NodeId.parsed 1 ∈ p.2.nodeIds →
        p.1 ∈ entryOf c3net (NodeId.parsed 1))) ∧
    aget (deleteNode c3net (NodeId.parsed 1)).nodes (NodeId.parsed 1) =
      none ∧
    (deleteNode c3net (NodeId.parsed 1)).edges = [] ∧
    (deleteNode c3net (NodeId.parsed 1)).nodes =
      [(NodeId.parsed 0, ⟨NodeId.parsed 0, 0, 0⟩),
        (NodeId.parsed 2, ⟨NodeId.parsed 2, 2, 0⟩)] ∧
    (deleteNode c3net (NodeId.parsed 1)).nodeEdgeIndex =
      [(NodeId.parsed 0, []), (NodeId.parsed 2, [])] := by
  refine ⟨⟨by decide, by decide⟩, ?_, by decide, by decide, by decide⟩
  exact (c3_delete_cascade c3net (NodeId.parsed 1) ⟨NodeId.parsed 1, 1, 0⟩
    (by decide) (by decide)).2.2.1

-- ── Claim C8 ─────────────────────────────────────────────────────────────────

/-- C8.  Idempotent no-ops on non-existent identities: `splitEdge` on an
edge id absent from the edge table, and `deleteNode` on a node id absent
from the node table (and hence, in any parsed graph, from the adjacency
index), leave the graph state exactly unchanged; both functions are total,
so no error is raised. -/
theorem c8_noop_nonexistent (net : Net) (edgeId : EdgeId) (nodeId : NodeId)
    (lng lat : ℚ) (ts : Nat)
    (hedge : aget net.edges edgeId = none)
    (hnode : aget net.nodes nodeId = none)
    (hentry : aget net.nodeEdgeIndex nodeId = none) :
    splitEdge net edgeId lng lat ts = net ∧ deleteNode net nodeId = net := by
  constructor
  · exact splitEdge_absent hedge
  · unfold deleteNode entryOf
    rw [hentry]
    show (⟨adel net.nodes nodeId, net.edges,
      adel (net.nodeEdgeIndex.map (fun q => (q.1, q.2))) nodeId⟩ : Net) = net
    rw [adel_of_aget_none hnode]
    have h2 : net.nodeEdgeIndex.map (fun q => (q.1, q.2)) =
        net.nodeEdgeIndex := by
      rw [show (fun q : NodeId × List EdgeId => (q.1, q.2)) =
        (id : NodeId × List EdgeId → NodeId × List EdgeId) from rfl]
      exact List.map_id _
    rw [h2, adel_of_aget_none hentry]

/-- Witness for C8: splitting the absent edge `e9` and deleting the absent
node `n9` on the {A,B,C} fixture leave it untouched. -/
theorem c8_noop_nonexistent_witness :
    (aget c3net.edges (EdgeId.parsed 9) = none ∧
      aget c3net.nodes (NodeId.parsed 9) = none ∧
      aget c3net.nodeEdgeIndex (NodeId.parsed 9) = none) ∧
    splitEdge c3net (EdgeId.parsed 9) 0 0 5 = c3net ∧
    deleteNode c3net (NodeId.parsed 9) = c3net := by
  refine ⟨⟨by decide, by decide, by decide⟩, ?_⟩
  exact c8_noop_nonexistent c3net (EdgeId.parsed 9) (NodeId.parsed 9) 0 0 5
    (by decide) (by decide) (by decide)

-- ── Claim C4 ─────────────────────────────────────────────────────────────────

theorem movesFold_graph (net : Net) (c : Caches) (A : NodeId)
    (moves : List (ℚ × ℚ)) :
    (movesFold net c A moves).1.edges = net.edges ∧
    (movesFold net c A moves).1.nodeEdgeIndex = net.nodeEdgeIndex := by
  induction moves generalizing net c with
  | nil => exact ⟨rfl, rfl⟩
  | cons mv rest ih =>
      have hd : (dragMove net c A mv.1 mv.2).1.edges = net.edges ∧
          (dragMove net c A mv.1 mv.2).1.nodeEdgeIndex =
            net.nodeEdgeIndex := by
        rcases hn : aget net.nodes A with _ | node
        · rw [dragMove_stale hn]
          exact ⟨rfl, rfl⟩
        · rw [dragMove_live hn]
          exact ⟨rfl, rfl⟩
      have ih' := ih (dragMove net c A mv.1 mv.2).1
        (dragMove net c A mv.1 mv.2).2
      exact ⟨ih'.1.trans hd.1, ih'.2.trans hd.2⟩

theorem movesFold_node (net : Net) (c : Caches) (A : NodeId)
    (moves : List (ℚ × ℚ)) {a : Node} (ha : aget net.nodes A = some a) :
    ∃ a1 : Node, aget (movesFold net c A moves).1.nodes A = some a1 ∧
      a1.id = a.id := by
  induction moves generalizing net c a with
  | nil => exact ⟨a, ha, rfl⟩
  | cons mv rest ih =>
      have h1 : aget (dragMove net c A mv.1 mv.2).1.nodes A =
          some ⟨a.id, mv.1, mv.2⟩ := by
        rw [dragMove_live ha]
        exact aget_aset_self _ _ _
      rcases ih (dragMove net c A mv.1 mv.2).1
        (dragMove net c A mv.1 mv.2).2 h1 with ⟨a1, h2, h3⟩
      exact ⟨a1, h2, h3⟩

/-- C4.  Snap-back on connect: drag an existing node A through any sequence
of pointer moves; on release over a different node B (first hit other than
A), A's node record is exactly its pre-drag record (position restored), and
exactly one new 2-node edge `[A, B]` is added (fresh `e_conn` id, all other
edge lookups unchanged, table one longer).  On release over empty space or
over A itself, the state is exactly the post-move state: A stays at the drop
location and no edge is added. -/
theorem c4_snap_back_on_connect (net : Net) (A : NodeId) (a : Node)
    (c : Caches) (moves : List (ℚ × ℚ)) (hits : List NodeId) (ts : Nat)
    (ha : aget net.nodes A = some a) :
    (∀ B, hits.find? (fun fid => fid ≠ A) = some B →
      aget (onMouseUp (movesFold net c A moves).1 ⟨A, a.lng, a.lat⟩ hits
          ts).nodes A = some a ∧
      aget (onMouseUp (movesFold net c A moves).1 ⟨A, a.lng, a.lat⟩ hits
          ts).edges (EdgeId.conn ts) = some ⟨EdgeId.conn ts, [A, B]⟩ ∧
      (∀ eid, eid ≠ EdgeId.conn ts →
        aget (onMouseUp (movesFold net c A moves).1 ⟨A, a.lng, a.lat⟩ hits
          ts).edges eid = aget net.edges eid) ∧
      (aget net.edges (EdgeId.conn ts) = none →
        (onMouseUp (movesFold net c A moves).1 ⟨A, a.lng, a.lat⟩ hits
          ts).edges.length = net.edges.length + 1)) ∧
    (hits.find? (fun fid => fid ≠ A) = none →
      onMouseUp (movesFold net c A moves).1 ⟨A, a.lng, a.lat⟩ hits ts =
        (movesFold net c A moves).1) := by
  obtain ⟨hE, hX⟩ := movesFold_graph net c A moves
  obtain ⟨a1, h1, h1id⟩ := movesFold_node net c A moves ha
  constructor
  · intro B hfind
    rw [onMouseUp_target_live hfind h1]
    dsimp only
    have hrestore : ({ a1 with lng := a.lng, lat := a.lat } : Node) = a := by
      rw [show ({ a1 with lng := a.lng, lat := a.lat } : Node) =
        ⟨a1.id, a.lng, a.lat⟩ from rfl, h1id]
    refine ⟨?_, ?_, ?_, ?_⟩
    · rw [aget_aset_self, hrestore]
    · rw [aget_aset_self]
    · intro eid hne
      rw [aget_aset_ne _ _ hne, hE]
    · intro hfresh
      rw [hE, length_aset_of_aget_none _ hfresh]
  · intro hfind
    exact onMouseUp_no_target hfind

/-- Witness for C4: drag A over an intermediate position and release over C
on the {A,B,C} fixture; the snap-back and edge-addition facts follow, and
releasing over empty hits is the identity. -/
theorem c4_snap_back_on_connect_witness :
    (aget c3net.nodes (NodeId.parsed 0) = some ⟨NodeId.parsed 0, 0, 0⟩ ∧
      ([NodeId.parsed 2] : List NodeId).find?
        (fun fid => fid ≠ NodeId.parsed 0) = some (NodeId.parsed 2) ∧
      aget c3net.edges (EdgeId.conn 5) = none) ∧
    aget (onMouseUp (movesFold c3net (buildCaches c3net) (NodeId.parsed 0)
        [(5, 5)]).1 ⟨NodeId.parsed 0, 0, 0⟩ [NodeId.parsed 2] 5).nodes
      (NodeId.parsed 0) = some ⟨NodeId.parsed 0, 0, 0⟩ ∧
    aget (onMouseUp (movesFold c3net (buildCaches c3net) (NodeId.parsed 0)
        [(5, 5)]).1 ⟨NodeId.parsed 0, 0, 0⟩ [NodeId.parsed 2] 5).edges
      (EdgeId.conn 5) =
      some ⟨EdgeId.conn 5, [NodeId.parsed 0, NodeId.parsed 2]⟩ := by
  refine ⟨⟨by decide, by decide, by decide⟩, ?_, ?_⟩
  · exact ((c4_snap_back_on_connect c3net (NodeId.parsed 0)
      ⟨NodeId.parsed 0, 0, 0⟩ (buildCaches c3net) [(5, 5)] [NodeId.parsed 2]
      5 (by decide)).1 (NodeId.parsed 2) (by decide)).1
  · exact ((c4_snap_back_on_connect c3net (NodeId.parsed 0)
      ⟨NodeId.parsed 0, 0, 0⟩ (buildCaches c3net) [(5, 5)] [NodeId.parsed 2]
      5 (by decide)).1 (NodeId.parsed 2) (by decide)).2.1

-- ── Claim C10 ────────────────────────────────────────────────────────────────

/-- C10.  Drag-to-connect never deduplicates connections: even when an edge
with the same endpoints `[A, B]` already exists, dropping dragged node A on
B adds a new edge under the fresh `e_conn_${ts}` identity; the old parallel
edge stays, the table grows by one, and the new id joins both endpoints'
adjacency entries while all previous entry members survive. -/
theorem c10_connect_accumulates_parallel_edges (net : Net) (drag : Drag)
    (hits : List NodeId) (ts : Nat) (B : NodeId) (eid0 : EdgeId) (e0 : Edge)
    (hfind : hits.find? (fun fid => fid ≠ drag.nodeId) = some B)
    (hpar : aget net.edges eid0 = some e0)
    (hpar2 : e0.nodeIds = [drag.nodeId, B])
    (hfresh : aget net.edges (EdgeId.conn ts) = none) :
    EdgeId.conn ts ≠ eid0 ∧
    aget (onMouseUp net drag hits ts).edges (EdgeId.conn ts) =
      some ⟨EdgeId.conn ts, [drag.nodeId, B]⟩ ∧
    aget (onMouseUp net drag hits ts).edges eid0 = some e0 ∧
    (onMouseUp net drag hits ts).edges.length = net.edges.length + 1 ∧
    EdgeId.conn ts ∈ entryOf (onMouseUp net drag hits ts) drag.nodeId ∧
    EdgeId.conn ts ∈ entryOf (onMouseUp net drag hits ts) B ∧
    (∀ nid, ∀ e1 ∈ entryOf net nid,
      e1 ∈ entryOf (onMouseUp net drag hits ts) nid) := by
  have hne0 : EdgeId.conn ts ≠ eid0 := by
    intro hc
    rw [← hc, hfresh] at hpar
    cases hpar
  have hmain : ∀ net1 : Net, net1.edges = net.edges →
      net1.nodeEdgeIndex = net.nodeEdgeIndex →
      aget (aset net1.edges (EdgeId.conn ts)
          ⟨EdgeId.conn ts, [drag.nodeId, B]⟩) (EdgeId.conn ts) =
        some ⟨EdgeId.conn ts, [drag.nodeId, B]⟩ ∧
      aget (aset net1.edges (EdgeId.conn ts)
          ⟨EdgeId.conn ts, [drag.nodeId, B]⟩) eid0 = some e0 ∧
      (aset net1.edges (EdgeId.conn ts)
          ⟨EdgeId.conn ts, [drag.nodeId, B]⟩).length =
        net.edges.length + 1 ∧
      EdgeId.conn ts ∈ (aget (indexAddAll net1.nodeEdgeIndex
          (EdgeId.conn ts) [drag.nodeId, B]) drag.nodeId).getD [] ∧
      EdgeId.conn ts ∈ (aget (indexAddAll net1.nodeEdgeIndex
          (EdgeId.conn ts) [drag.nodeId, B]) B).getD [] ∧
      (∀ nid, ∀ e1 ∈ (aget net.nodeEdgeIndex nid).getD [],
        e1 ∈ (aget (indexAddAll net1.nodeEdgeIndex (EdgeId.conn ts)
          [drag.nodeId, B]) nid).getD []) := by
    intro net1 hE hX
    refine ⟨aget_aset_self _ _ _, ?_, ?_, ?_, ?_, ?_⟩
    · rw [aget_aset_ne _ _ (fun hc => hne0 hc.symm), hE]
      exact hpar
    · rw [hE]
      exact length_aset_of_aget_none _ hfresh
    · exact self_mem_entry_indexAddAll _ _ (by simp)
    · exact self_mem_entry_indexAddAll _ _ (by simp)
    · intro nid e1 h1
      rw [hX]
      exact entry_mono_indexAddAll h1
  rcases hnode : aget net.nodes drag.nodeId with _ | node
  · rw [onMouseUp_target_stale hfind hnode]
    have h := hmain net rfl rfl
    exact ⟨hne0, h.1, h.2.1, h.2.2.1, h.2.2.2.1, h.2.2.2.2.1, h.2.2.2.2.2⟩
  · rw [onMouseUp_target_live hfind hnode]
    have h := hmain ⟨aset net.nodes drag.nodeId
        ⟨node.id, drag.origLng, drag.origLat⟩, net.edges,
        net.nodeEdgeIndex⟩ rfl rfl
    exact ⟨hne0, h.1, h.2.1, h.2.2.1, h.2.2.2.1, h.2.2.2.2.1, h.2.2.2.2.2⟩

/-- Witness for C10: the {A,B,C} fixture already has edge `e0 = [A, B]`;
dropping a drag of A onto B adds `e_conn_5` next to it. -/
theorem c10_connect_accumulates_parallel_edges_witness :
    (([NodeId.parsed 1] : List NodeId).find?
        (fun fid => fid ≠ NodeId.parsed 0) = some (NodeId.parsed 1) ∧
      aget c3net.edges (EdgeId.parsed 0) =
        some ⟨EdgeId.parsed 0, [NodeId.parsed 0, NodeId.parsed 1]⟩ ∧
      aget c3net.edges (EdgeId.conn 5) = none) ∧
    aget (onMouseUp c3net ⟨NodeId.parsed 0, 0, 0⟩ [NodeId.parsed 1]
        5).edges (EdgeId.conn 5) =
      some ⟨EdgeId.conn 5, [NodeId.parsed 0, NodeId.parsed 1]⟩ ∧
    aget (onMouseUp c3net ⟨NodeId.parsed 0, 0, 0⟩ [NodeId.parsed 1]
        5).edges (EdgeId.parsed 0) =
      some ⟨EdgeId.parsed 0, [NodeId.parsed 0, NodeId.parsed 1]⟩ ∧
    (onMouseUp c3net ⟨NodeId.parsed 0, 0, 0⟩ [NodeId.parsed 1]
        5).edges.length = c3net.edges.length + 1 := by
  have h := c10_connect_accumulates_parallel_edges c3net
    ⟨NodeId.parsed 0, 0, 0⟩ [NodeId.parsed 1] 5 (NodeId.parsed 1)
    (EdgeId.parsed 0)
    ⟨EdgeId.parsed 0, [NodeId.parsed 0, NodeId.parsed 1]⟩
    (by decide) (by decide) (by decide) (by decide)
  exact ⟨⟨by decide, by decide, by decide⟩, h.2.1, h.2.2.1, h.2.2.2.1⟩

-- ── Claim C7 (corrected) ─────────────────────────────────────────────────────

/-- Counterexample to C7 as stated: with only node B in the graph and a
stale drag of the deleted id `n9`, releasing over B still adds an edge — the
edge table does not stay unchanged. -/
theorem c7_counterexample :
    aget c7net.nodes (NodeId.parsed 9) = none ∧
    ¬ (onMouseUp c7net ⟨NodeId.parsed 9, 0, 0⟩ [NodeId.parsed 0]
        0).edges = c7net.edges := by
  constructor
  · decide
  · decide

/-- C7 (amended).  Stale-identity events: a pointer-move whose dragged node
id is no longer present mutates nothing, and a stale pointer-up released
over empty space (or only over the dragged id itself) mutates nothing; but a
stale pointer-up released over another node B skips the snap-back yet still
adds edge `[staleId, B]` to the edge table and the adjacency index, leaving
the node table unchanged.  All handlers are total, so no error is raised. -/
theorem c7_stale_events (net : Net) (c : Caches) (drag : Drag)
    (hits : List NodeId) (ts : Nat) (lng lat : ℚ)
    (hstale : aget net.nodes drag.nodeId = none) :
    dragMove net c drag.nodeId lng lat = (net, c) ∧
    (hits.find? (fun fid => fid ≠ drag.nodeId) = none →
      onMouseUp net drag hits ts = net) ∧
    (∀ B, hits.find? (fun fid => fid ≠ drag.nodeId) = some B →
      onMouseUp net drag hits ts =
        { net with
          edges := aset net.edges (EdgeId.conn ts)
            ⟨EdgeId.conn ts, [drag.nodeId, B]⟩
          nodeEdgeIndex := indexAddAll net.nodeEdgeIndex (EdgeId.conn ts)
            [drag.nodeId, B] } ∧
      (onMouseUp net drag hits ts).nodes = net.nodes) := by
  refine ⟨dragMove_stale hstale, ?_, ?_⟩
  · intro hfind
    exact onMouseUp_no_target hfind
  · intro B hfind
    refine ⟨onMouseUp_target_stale hfind hstale, ?_⟩
    rw [onMouseUp_target_stale hfind hstale]

/-- Witness for C7 (amended), on the one-node fixture with the stale id
`n9`: the move is a no-op, an empty release is a no-op, and a release over B
adds exactly the stale edge. -/
theorem c7_stale_events_witness :
    (aget c7net.nodes (NodeId.parsed 9) = none ∧
      ([] : List NodeId).find? (fun fid => fid ≠ NodeId.parsed 9) = none) ∧
    dragMove c7net (buildCaches c7net) (NodeId.parsed 9) 3 3 =
      (c7net, buildCaches c7net) ∧
    onMouseUp c7net ⟨NodeId.parsed 9, 0, 0⟩ [] 0 = c7net ∧
    (onMouseUp c7net ⟨NodeId.parsed 9, 0, 0⟩ [NodeId.parsed 0] 0).nodes =
      c7net.nodes := by
  refine ⟨⟨by decide, by decide⟩, ?_, ?_, ?_⟩
  · exact (c7_stale_events c7net (buildCaches c7net) ⟨NodeId.parsed 9, 0, 0⟩
      [] 0 3 3 (by decide)).1
  · exact (c7_stale_events c7net (buildCaches c7net) ⟨NodeId.parsed 9, 0, 0⟩
      [] 0 3 3 (by decide)).2.1 (by decide)
  · exact ((c7_stale_events c7net (buildCaches c7net) ⟨NodeId.parsed 9, 0, 0⟩
      [NodeId.parsed 0] 0 3 3 (by decide)).2.2 (NodeId.parsed 0)
      (by decide)).2

-- ── Claim C6 (corrected) ─────────────────────────────────────────────────────

/-- Counterexample to C6 as stated: a right-click on an edge primitive while
a drag is in progress (`dragging = true`) is not ignored — the edge handler
has no drag guard and opens the context menu. -/
theorem c6_counterexample :
    onEdgeContextMenu true (some (EdgeId.parsed 0)) 0 0 0 0 none ≠ none := by
  decide

/-- C6 (amended).  Right-click during a drag: the node handler ignores the
event (the menu state is unchanged for every payload), but the edge handler
opens the edge context menu regardless of the drag flag whenever the event
carries an edge feature id. -/
theorem c6_contextmenu_during_drag :
    (∀ (featId : Option NodeId) (x y : ℚ) (menu : Option CtxMenu),
      onNodeContextMenu true featId x y menu = menu) ∧
    (∀ (dragging : Bool) (eid : EdgeId) (x y lng lat : ℚ)
        (menu : Option CtxMenu),
      onEdgeContextMenu dragging (some eid) x y lng lat menu =
        some (CtxMenu.edge eid x y lng lat)) := by
  constructor
  · intro featId x y menu
    rfl
  · intro dragging eid x y lng lat menu
    rfl

-- ── Claim C5 ─────────────────────────────────────────────────────────────────

theorem aset_eq_map_of_nodupkeys {κ τ : Type} [DecidableEq κ]
    {m : JMap κ τ} {k : κ} {v0 : τ} (v : τ)
    (hnd : (m.map Prod.fst).Nodup) (h : aget m k = some v0) :
    aset m k v = m.map (fun p => if p.1 = k then (k, v) else p) := by
  induction m with
  | nil => cases h
  | cons q rest ih =>
      obtain ⟨a, b⟩ := q
      rw [List.map_cons, List.nodup_cons] at hnd
      by_cases ha : a = k
      · subst ha
        rw [show aset ((a, b) :: rest) a v = (a, v) :: rest from by
          simp [aset]]
        rw [List.map_cons]
        simp only [if_pos]
        congr 1
        have hrest : ∀ p ∈ rest, (fun p : κ × τ =>
            if p.1 = a then (a, v) else p) p = id p := by
          intro p hp
          have hm1 : p.1 ∈ rest.map Prod.fst :=
            List.mem_map_of_mem Prod.fst hp
          have : p.1 ≠ a := by
            intro hc
            rw [hc] at hm1
            exact hnd.1 hm1
          simp [this]
        rw [List.map_congr_left hrest, List.map_id]
      · rw [show aset ((a, b) :: rest) k v = (a, b) :: aset rest k v from by
          simp [aset, ha]]
        rw [List.map_cons]
        simp only [ha, if_false]
        rw [aget] at h
        simp only [ha, if_false] at h
        rw [ih hnd.2 h]

theorem filterMap_aget_aset_not_mem {nodes : JMap NodeId Node} {N : NodeId}
    (v : Node) {L : List NodeId} (h : N ∉ L) :
    L.filterMap (aget (aset nodes N v)) = L.filterMap (aget nodes) := by
  refine List.filterMap_congr ?_
  intro nid hnid
  have : nid ≠ N := by
    intro hc
    exact h (hc ▸ hnid)
  exact aget_aset_ne _ _ this

theorem edgeCoords_aset_not_mem {nodes : JMap NodeId Node} {N : NodeId}
    (v : Node) {e : Edge} (h : N ∉ e.nodeIds) :
    edgeCoords (aset nodes N v) e = edgeCoords nodes e := by
  unfold edgeCoords
  rw [filterMap_aget_aset_not_mem v h]

theorem length_filterMap_aget_aset {nodes : JMap NodeId Node} {N : NodeId}
    {node : Node} (v : Node) (h : aget nodes N = some node) :
    ∀ L : List NodeId,
      (L.filterMap (aget (aset nodes N v))).length =
        (L.filterMap (aget nodes)).length := by
  intro L
  induction L with
  | nil => rfl
  | cons nid rest ih =>
      by_cases hn : nid = N
      · subst hn
        rw [List.filterMap_cons, List.filterMap_cons, aget_aset_self, h]
        simp [ih]
      · rw [List.filterMap_cons, List.filterMap_cons, aget_aset_ne _ _ hn]
        cases aget nodes nid <;> simp [ih]

theorem edgeCoords_length_aset {nodes : JMap NodeId Node} {N : NodeId}
    {node : Node} (v : Node) (h : aget nodes N = some node) (e : Edge) :
    (edgeCoords (aset nodes N v) e).length = (edgeCoords nodes e).length := by
  unfold edgeCoords
  rw [List.length_map, List.length_map, length_filterMap_aget_aset v h]

/-- The hypotheses of the incremental-projection argument: well-keyed
duplicate-free node and edge tables, and the two directions of the adjacency
invariant restricted to the dragged node `N` (all consequences of `NetWf`,
which every reachable state satisfies). -/
def C5Inv (net : Net) (N : NodeId) : Prop :=
  (net.nodes.map Prod.fst).Nodup ∧
  (∀ p ∈ net.nodes, p.2.id = p.1) ∧
  (net.edges.map Prod.fst).Nodup ∧
  (∀ p ∈ net.edges, p.2.id = p.1) ∧
  (∀ p ∈ net.edges, N ∈ p.2.nodeIds → p.1 ∈ entryOf net N) ∧
  (∀ eid ∈ entryOf net N, ∃ p ∈ net.edges, p.1 = eid ∧ N ∈ p.2.nodeIds)

theorem c5inv_dragMove (net : Net) (c : Caches) (N : NodeId) (lng lat : ℚ)
    (h : C5Inv net N) : C5Inv (dragMove net c N lng lat).1 N := by
  obtain ⟨hNnd, hNid, hEnd, hEid, hIdxN, hSndN⟩ := h
  rcases hnode : aget net.nodes N with _ | node
  · rw [dragMove_stale hnode]
    exact ⟨hNnd, hNid, hEnd, hEid, hIdxN, hSndN⟩
  · rw [dragMove_live hnode]
    have hmem := mem_of_aget_eq_some hnode
    refine ⟨?_, ?_, hEnd, hEid, hIdxN, hSndN⟩
    · rw [keys_aset_of_aget_isSome _ (by rw [hnode]; rfl)]
      exact hNnd
    · intro p hp
      rcases mem_aset hp with h | h
      · subst h
        exact hNid (N, node) hmem
      · exact hNid p h

/-- One incremental step agrees with a full rebuild: starting from caches
that equal `buildCaches net`, the in-place updates of `onMouseMove` produce
exactly `buildCaches` of the moved graph. -/
theorem dragMove_rebuild (net : Net) (N : NodeId) (lng lat : ℚ)
    (h : C5Inv net N) :
    (dragMove net (buildCaches net) N lng lat).2 =
      buildCaches (dragMove net (buildCaches net) N lng lat).1 := by
  obtain ⟨hNnd, hNid, hEnd, hEid, hIdxN, hSndN⟩ := h
  rcases hnode : aget net.nodes N with _ | node
  · rw [dragMove_stale hnode]
  · rw [dragMove_live hnode]
    dsimp only
    unfold buildCaches
    dsimp only
    congr 1
    · -- node features
      rw [aset_eq_map_of_nodupkeys _ hNnd hnode, List.map_map, List.map_map]
      refine List.map_congr_left ?_
      intro p hp
      dsimp only [Function.comp]
      have hkey := hNid p hp
      by_cases hp1 : p.1 = N
      · have hpv : p.2 = node := by
          have h1 := aget_eq_some_of_mem_nodupkeys hNnd hp
          rw [hp1, hnode] at h1
          injection h1 with h1
          exact h1.symm
        rw [if_pos hp1, if_pos (hkey.trans hp1)]
        dsimp only
        rw [hpv]
      · rw [if_neg hp1, if_neg (fun hc => hp1 (hkey.symm.trans hc))]
    · -- edge features
      rw [List.map_filterMap]
      refine List.filterMap_congr ?_
      intro p hp
      dsimp only
      have hkey := hEid p hp
      have hlen := edgeCoords_length_aset
        (⟨node.id, lng, lat⟩ : Node) hnode p.2
      by_cases hshort : (edgeCoords net.nodes p.2).length < 2
      · rw [if_pos hshort, if_pos (by rw [hlen]; exact hshort)]
        rfl
      · rw [if_neg hshort, if_neg (by rw [hlen]; exact hshort)]
        rw [Option.map_some']
        congr 1
        show (if p.2.id ∈ entryOf net N then _ else _) = _
        by_cases hin : p.2.id ∈ entryOf net N
        · rw [if_pos hin]
          have hself : aget net.edges p.2.id = some p.2 := by
            rw [hkey]
            exact aget_eq_some_of_mem_nodupkeys hEnd hp
          show (match aget net.edges p.2.id with
            | some edge => (⟨p.2.id, edgeCoords (aset net.nodes N
                ⟨node.id, lng, lat⟩) edge⟩ : EdgeFeat)
            | none => ⟨p.2.id, edgeCoords net.nodes p.2⟩) = _
          rw [hself]
        · rw [if_neg hin]
          have hnotin : N ∉ p.2.nodeIds := by
            intro hc
            exact hin (hkey ▸ hIdxN p hp hc)
          rw [edgeCoords_aset_not_mem _ hnotin]

/-- The incremental update leaves the cached features of non-dragged nodes
and of edges not listed for the dragged node untouched, position by
position. -/
theorem dragMove_untouched (net : Net) (c : Caches) (N : NodeId)
    (lng lat : ℚ)
    (hSndN : ∀ eid ∈ entryOf net N, ∃ e, aget net.edges eid = some e ∧
      N ∈ e.nodeIds) :
    (∀ i : Nat, ∀ f : NodeFeat, c.nodeFC[i]? = some f → f.id ≠ N →
      (dragMove net c N lng lat).2.nodeFC[i]? = some f) ∧
    (∀ i : Nat, ∀ f : EdgeFeat, c.edgeFC[i]? = some f →
      (∀ e, aget net.edges f.id = some e → N ∉ e.nodeIds) →
      (dragMove net c N lng lat).2.edgeFC[i]? = some f) := by
  rcases hnode : aget net.nodes N with _ | node
  · rw [dragMove_stale hnode]
    exact ⟨fun i f hf _ => hf, fun i f hf _ => hf⟩
  · rw [dragMove_live hnode]
    dsimp only
    constructor
    · intro i f hf hne
      rw [List.getElem?_map, hf]
      simp only [Option.map_some']
      rw [if_neg hne]
    · intro i f hf hcond
      rw [List.getElem?_map, hf]
      simp only [Option.map_some']
      have hnotin : f.id ∉ entryOf net N := by
        intro hc
        rcases hSndN f.id hc with ⟨e, he, hNe⟩
        exact hcond e he hNe
      rw [if_neg hnotin]

theorem movesFold_rebuild (net : Net) (N : NodeId) (moves : List (ℚ × ℚ))
    (h : C5Inv net N) :
    (movesFold net (buildCaches net) N moves).2 =
      buildCaches (movesFold net (buildCaches net) N moves).1 ∧
    C5Inv (movesFold net (buildCaches net) N moves).1 N := by
  induction moves generalizing net with
  | nil => exact ⟨rfl, h⟩
  | cons mv rest ih =>
      have h1 := dragMove_rebuild net N mv.1 mv.2 h
      have h2 := c5inv_dragMove net (buildCaches net) N mv.1 mv.2 h
      have hstep : movesFold net (buildCaches net) N (mv :: rest) =
          movesFold (dragMove net (buildCaches net) N mv.1 mv.2).1
            (dragMove net (buildCaches net) N mv.1 mv.2).2 N rest := rfl
      rw [hstep, h1]
      exact ih (dragMove net (buildCaches net) N mv.1 mv.2).1 h2

/-- C5.  Incremental-projection equivalence: for every sequence of
position-only moves of a single node N (the drag hot path) starting from a
full build of the caches, the incrementally maintained caches after the
moves equal `buildCaches` of the resulting graph state (same feature lists,
hence the same node/edge identities with the same final coordinates), and
each further move leaves the cached features of nodes other than N, and of
edges not incident on N, unchanged at their positions.  The hypotheses are
the well-keyedness and N-restricted adjacency invariants, which hold in
every reachable state. -/
theorem c5_incremental_projection_equivalence (net : Net) (N : NodeId)
    (moves : List (ℚ × ℚ)) (h : C5Inv net N) :
    ((movesFold net (buildCaches net) N moves).2 =
      buildCaches (movesFold net (buildCaches net) N moves).1) ∧
    (∀ (lng lat : ℚ) (i : Nat),
      (∀ f : NodeFeat,
        (movesFold net (buildCaches net) N moves).2.nodeFC[i]? = some f →
        f.id ≠ N →
        (dragMove (movesFold net (buildCaches net) N moves).1
          (movesFold net (buildCaches net) N moves).2 N lng
          lat).2.nodeFC[i]? = some f) ∧
      (∀ f : EdgeFeat,
        (movesFold net (buildCaches net) N moves).2.edgeFC[i]? = some f →
        (∀ e, aget (movesFold net (buildCaches net) N moves).1.edges f.id =
          some e → N ∉ e.nodeIds) →
        (dragMove (movesFold net (buildCaches net) N moves).1
          (movesFold net (buildCaches net) N moves).2 N lng
          lat).2.edgeFC[i]? = some f)) := by
  obtain ⟨heq, hinv⟩ := movesFold_rebuild net N moves h
  refine ⟨heq, ?_⟩
  intro lng lat i
  have hSndN : ∀ eid ∈ entryOf (movesFold net (buildCaches net) N moves).1 N,
      ∃ e, aget (movesFold net (buildCaches net) N moves).1.edges eid =
        some e ∧ N ∈ e.nodeIds := by
    intro eid hc
    rcases hinv.2.2.2.2.2 eid hc with ⟨p, hp, hpeq, hpN⟩
    refine ⟨p.2, ?_, hpN⟩
    rw [← hpeq]
    exact aget_eq_some_of_mem_nodupkeys hinv.2.2.1 hp
  have hu := dragMove_untouched (movesFold net (buildCaches net) N moves).1
    (movesFold net (buildCaches net) N moves).2 N lng lat hSndN
  exact ⟨fun f hf hne => hu.1 i f hf hne, fun f hf hc => hu.2 i f hf hc⟩

/-- Witness for C5: dragging node B of the {A,B,C} fixture through one
move; the fixture satisfies the well-keyedness and adjacency hypotheses by
computation. -/
theorem c5_incremental_projection_equivalence_witness :
    C5Inv c3net (NodeId.parsed 1) ∧
    (movesFold c3net (buildCaches c3net) (NodeId.parsed 1) [(5, 5)]).2 =
      buildCaches
        (movesFold c3net (buildCaches c3net) (NodeId.parsed 1) [(5, 5)]).1 := by
  constructor
  · show _ ∧ _
    refine ⟨by decide, by decide, by decide, by decide, by decide, by decide⟩
  · exact (c5_incremental_projection_equivalence c3net (NodeId.parsed 1)
      [(5, 5)] (by refine ⟨by decide, by decide, by decide, by decide,
        by decide, by decide⟩)).1

-- ── Claim C9 ─────────────────────────────────────────────────────────────────

theorem resolveRing_length (s : ParseState) (ring : List Point) :
    (resolveRing s ring).1.length = ring.length := by
  induction ring generalizing s with
  | nil => rfl
  | cons p rest ih =>
      show ((getNode s p.lng p.lat).1 ::
        (resolveRing (getNode s p.lng p.lat).2 rest).1).length = _
      rw [List.length_cons, ih]
      rfl

theorem ringStep_byKey (s : ParseState) (ring : List Point) :
    (ringStep s ring).byKey = (resolveRing s ring).2.byKey ∧
    (ringStep s ring).nc = (resolveRing s ring).2.nc := by
  unfold ringStep
  dsimp only
  by_cases h : (resolveRing s ring).1.length < 2
  · rw [if_pos h]
    exact ⟨rfl, rfl⟩
  · rw [if_neg h]
    exact ⟨rfl, rfl⟩

theorem foldl_byKey_mono (rings : List (List Point)) (s : ParseState)
    {key0 : (Bool × Nat) × (Bool × Nat)} {n0 : Node}
    (h : aget s.byKey key0 = some n0) :
    aget ((rings.foldl ringStep s).byKey) key0 = some n0 := by
  induction rings generalizing s with
  | nil => exact h
  | cons r rest ih =>
      show aget ((rest.foldl ringStep (ringStep s r)).byKey) key0 = some n0
      refine ih (ringStep s r) ?_
      rw [(ringStep_byKey s r).1]
      exact resolveRing_byKey_mono r h

/-- The node ids a ring resolves to are exactly the final `byKey` ids of its
vertices, for any later state `F` that preserves the bindings made while
resolving the ring. -/
theorem resolveRing_ids (ring : List Point) (s : ParseState) (F : ParseState)
    (hmono : ∀ key n, aget (resolveRing s ring).2.byKey key = some n →
      aget F.byKey key = some n) :
    (resolveRing s ring).1 = ring.map (resolveD F) := by
  induction ring generalizing s with
  | nil => rfl
  | cons p rest ih =>
      have hmono' : ∀ key n,
          aget (resolveRing (getNode s p.lng p.lat).2 rest).2.byKey key =
            some n → aget F.byKey key = some n := hmono
      rcases getNode_spec s p.lng p.lat with ⟨n, hbind, hid⟩
      have hpersist : aget
          (resolveRing (getNode s p.lng p.lat).2 rest).2.byKey
          (keyQ p.lng, keyQ p.lat) = some n :=
        resolveRing_byKey_mono rest hbind
      have hF := hmono' _ _ hpersist
      show (getNode s p.lng p.lat).1 ::
        (resolveRing (getNode s p.lng p.lat).2 rest).1 =
        resolveD F p :: rest.map (resolveD F)
      congr 1
      · rw [hid]
        unfold resolveD resolveVertex
        rw [show keyOf p = (keyQ p.lng, keyQ p.lat) from rfl, hF]
        rfl
      · exact ih (getNode s p.lng p.lat).2 hmono'

/-- Distinct keys of `byKey` are bound to nodes with distinct ids (the fresh
counter guarantees it), so equal resolved ids force equal keys. -/
theorem aget_id_inj {m : JMap ((Bool × Nat) × (Bool × Nat)) Node}
    {k1 k2 : (Bool × Nat) × (Bool × Nat)} {n1 n2 : Node}
    (hnd : (m.map (fun p => p.2.id)).Nodup)
    (h1 : aget m k1 = some n1) (h2 : aget m k2 = some n2)
    (hid : n1.id = n2.id) : k1 = k2 := by
  induction m with
  | nil => cases h1
  | cons q rest ih =>
      obtain ⟨a, b⟩ := q
      rw [List.map_cons, List.nodup_cons] at hnd
      by_cases ha1 : a = k1 <;> by_cases ha2 : a = k2
      · rw [← ha1, ← ha2]
      · exfalso
        have hb1 : b = n1 := by
          have := h1
          rw [aget] at this
          simp only [ha1, if_pos] at this
          injection this
        have hr2 : aget rest k2 = some n2 := by
          have := h2
          rw [aget] at this
          simp only [ha2, if_false] at this
          exact this
        have hm2 : n2.id ∈ rest.map (fun p => p.2.id) :=
          List.mem_map_of_mem (fun p => p.2.id) (mem_of_aget_eq_some hr2)
        rw [← hid, ← hb1] at hm2
        exact hnd.1 hm2
      · exfalso
        have hb2 : b = n2 := by
          have := h2
          rw [aget] at this
          simp only [ha2, if_pos] at this
          injection this
        have hr1 : aget rest k1 = some n1 := by
          have := h1
          rw [aget] at this
          simp only [ha1, if_false] at this
          exact this
        have hm1 : n1.id ∈ rest.map (fun p => p.2.id) :=
          List.mem_map_of_mem (fun p => p.2.id) (mem_of_aget_eq_some hr1)
        rw [hid, ← hb2] at hm1
        exact hnd.1 hm1
      · have hr1 : aget rest k1 = some n1 := by
          have := h1
          rw [aget] at this
          simp only [ha1, if_false] at this
          exact this
        have hr2 : aget rest k2 = some n2 := by
          have := h2
          rw [aget] at this
          simp only [ha2, if_false] at this
          exact this
        exact ih hnd.2 hr1 hr2

theorem resolveRing_covers (ring : List Point) (s : ParseState) :
    ∀ p ∈ ring, ∃ n, aget (resolveRing s ring).2.byKey (keyOf p) = some n := by
  induction ring generalizing s with
  | nil => intro p hp; cases hp
  | cons q rest ih =>
      intro p hp
      rcases List.mem_cons.1 hp with h | h
      · subst h
        rcases getNode_spec s p.lng p.lat with ⟨n, hbind, _⟩
        exact ⟨n, resolveRing_byKey_mono rest hbind⟩
      · exact ih (getNode s q.lng q.lat).2 p h

theorem foldl_covers (rings : List (List Point)) (s : ParseState) :
    ∀ ring ∈ rings, ∀ p ∈ ring,
      ∃ n, aget ((rings.foldl ringStep s).byKey) (keyOf p) = some n := by
  induction rings generalizing s with
  | nil => intro ring h; cases h
  | cons r rest ih =>
      intro ring hring p hp
      rcases List.mem_cons.1 hring with h | h
      · subst h
        rcases resolveRing_covers ring s p hp with ⟨n, hn⟩
        refine ⟨n, ?_⟩
        show aget ((rest.foldl ringStep (ringStep s ring)).byKey) (keyOf p) =
          some n
        refine foldl_byKey_mono rest _ ?_
        rw [(ringStep_byKey s ring).1]
        exact hn
      · exact ih (ringStep s r) ring h p hp

/-- The edge table the parse fold builds: one edge per kept ring (those with
at least 2 vertices), numbered from the edge counter in order, each
referencing the final resolved ids of its vertices in input order. -/
theorem foldl_edges (rings : List (List Point)) (s : ParseState)
    (h : PInv s) :
    (rings.foldl ringStep s).edges =
      s.edges ++
        (((rings.filter (fun r => 2 ≤ r.length)).enumFrom s.ec).map
          (fun kr => (EdgeId.parsed kr.1,
            (⟨EdgeId.parsed kr.1,
              kr.2.map (resolveD (rings.foldl ringStep s))⟩ : Edge)))) := by
  induction rings generalizing s with
  | nil => simp
  | cons r rest ih =>
      have hPInv1 := pinv_ringStep s r h
      have hlenEq := resolveRing_length s r
      show (rest.foldl ringStep (ringStep s r)).edges = _
      by_cases hlen : r.length < 2
      · have hcond : ¬ (2 : Nat) ≤ r.length := by omega
        have hfilter : (r :: rest).filter (fun r => 2 ≤ r.length) =
            rest.filter (fun r => 2 ≤ r.length) := by
          simp [List.filter_cons, hcond]
        have hstepE : (ringStep s r).edges = s.edges := by
          unfold ringStep
          dsimp only
          rw [if_pos (by rw [hlenEq]; exact hlen)]
          exact (resolveRing_fields s r).1
        have hstepC : (ringStep s r).ec = s.ec := by
          unfold ringStep
          dsimp only
          rw [if_pos (by rw [hlenEq]; exact hlen)]
          exact (resolveRing_fields s r).2.1
        rw [ih (ringStep s r) hPInv1, hstepE, hstepC, hfilter]
        rfl
      · have hcond : (2 : Nat) ≤ r.length := by omega
        have hfilter : (r :: rest).filter (fun r => 2 ≤ r.length) =
            r :: rest.filter (fun r => 2 ≤ r.length) := by
          simp [List.filter_cons, hcond]
        have hfreshS : aget s.edges (EdgeId.parsed s.ec) = none := by
          rw [aget_eq_none_iff]
          intro p hp
          rcases h.2.2.2.2.1 p hp with ⟨k, hklt, hkid⟩
          rw [hkid]
          intro hc
          injection hc with hc
          omega
        have hstepE : (ringStep s r).edges = s.edges ++
            [(EdgeId.parsed s.ec,
              (⟨EdgeId.parsed s.ec, (resolveRing s r).1⟩ : Edge))] := by
          unfold ringStep
          dsimp only
          rw [if_neg (by rw [hlenEq]; omega)]
          dsimp only
          rw [(resolveRing_fields s r).1, (resolveRing_fields s r).2.1,
            aset_of_aget_none _ hfreshS]
        have hstepC : (ringStep s r).ec = s.ec + 1 := by
          unfold ringStep
          dsimp only
          rw [if_neg (by rw [hlenEq]; omega)]
          dsimp only
          rw [(resolveRing_fields s r).2.1]
        have hids : (resolveRing s r).1 =
            r.map (resolveD (rest.foldl ringStep (ringStep s r))) := by
          refine resolveRing_ids r s _ ?_
          intro key n hbind
          refine foldl_byKey_mono rest _ ?_
          rw [(ringStep_byKey s r).1]
          exact hbind
        rw [ih (ringStep s r) hPInv1, hstepE, hstepC, hfilter, hids,
          List.append_assoc]
        rfl

/-- C9.  Coordinate quantization: every input vertex resolves to a node id
bound for its 6-decimal key; two input vertices resolve to the same node id
exactly when their coordinates round to the same key (fresh id on first
sight of a key, reused afterwards); and the edge table is exactly one edge
per input line with at least 2 vertices, numbered in input order,
referencing the resolved ids of the line's vertices in order — lines with
fewer than 2 vertices produce no edge.  `parseNetwork` is a total function,
so degenerate input raises no error. -/
theorem c9_coordinate_quantization (rings : List (List Point)) :
    (∀ ring ∈ rings, ∀ p ∈ ring,
      (resolveVertex (parseState rings) p).isSome) ∧
    (∀ ring ∈ rings, ∀ p ∈ ring, ∀ ring' ∈ rings, ∀ q ∈ ring',
      (resolveVertex (parseState rings) p =
        resolveVertex (parseState rings) q ↔ keyOf p = keyOf q)) ∧
    (parseNetwork rings).edges =
      ((rings.filter (fun r => 2 ≤ r.length)).enum.map
        (fun kr => (EdgeId.parsed kr.1,
          (⟨EdgeId.parsed kr.1,
            kr.2.map (resolveD (parseState rings))⟩ : Edge)))) := by
  have hcov : ∀ ring ∈ rings, ∀ p ∈ ring,
      ∃ n, aget (parseState rings).byKey (keyOf p) = some n :=
    foldl_covers rings ⟨[], 0, [], 0, []⟩
  have hpinv := pinv_parseState rings
  refine ⟨?_, ?_, ?_⟩
  · intro ring hring p hp
    rcases hcov ring hring p hp with ⟨n, hn⟩
    unfold resolveVertex
    rw [hn]
    rfl
  · intro ring hring p hp ring' hring' q hq
    rcases hcov ring hring p hp with ⟨n1, hn1⟩
    rcases hcov ring' hring' q hq with ⟨n2, hn2⟩
    constructor
    · intro heq
      unfold resolveVertex at heq
      rw [hn1, hn2] at heq
      simp only [Option.map_some'] at heq
      injection heq with heq
      exact aget_id_inj hpinv.1 hn1 hn2 heq
    · intro hkey
      unfold resolveVertex
      rw [hkey]
  · have hinit : PInv (⟨[], 0, [], 0, []⟩ : ParseState) := by
      refine ⟨by simp, by simp, by simp, by simp, by simp, by simp,
        by simp, ?_⟩
      intro nid t h
      simp [aget] at h
    have hedges := foldl_edges rings ⟨[], 0, [], 0, []⟩ hinit
    show (parseState rings).edges = _
    rw [show (parseState rings).edges =
      (rings.foldl ringStep ⟨[], 0, [], 0, []⟩).edges from rfl, hedges]
    rw [List.nil_append]
    rfl

/-- Witness for C9: a single line whose first and third vertices coincide;
every vertex resolves, and the resolutions of (0,0) and (1,0) agree exactly
when their keys do. -/
theorem c9_coordinate_quantization_witness :
    (([(⟨0, 0⟩ : Point), ⟨1, 0⟩, ⟨0, 0⟩] ∈
        [[(⟨0, 0⟩ : Point), ⟨1, 0⟩, ⟨0, 0⟩]]) ∧
      (⟨0, 0⟩ : Point) ∈ [(⟨0, 0⟩ : Point), ⟨1, 0⟩, ⟨0, 0⟩] ∧
      (⟨1, 0⟩ : Point) ∈ [(⟨0, 0⟩ : Point), ⟨1, 0⟩, ⟨0, 0⟩]) ∧
    (resolveVertex (parseState [[(⟨0, 0⟩ : Point), ⟨1, 0⟩, ⟨0, 0⟩]])
      ⟨0, 0⟩).isSome ∧
    (resolveVertex (parseState [[(⟨0, 0⟩ : Point), ⟨1, 0⟩, ⟨0, 0⟩]]) ⟨0, 0⟩ =
      resolveVertex (parseState [[(⟨0, 0⟩ : Point), ⟨1, 0⟩, ⟨0, 0⟩]]) ⟨1, 0⟩
      ↔ keyOf ⟨0, 0⟩ = keyOf ⟨1, 0⟩) := by
  have h := c9_coordinate_quantization [[(⟨0, 0⟩ : Point), ⟨1, 0⟩, ⟨0, 0⟩]]
  refine ⟨⟨by decide, by decide, by decide⟩, ?_, ?_⟩
  · exact h.1 [(⟨0, 0⟩ : Point), ⟨1, 0⟩, ⟨0, 0⟩] (by decide)
      (⟨0, 0⟩ : Point) (by decide)
  · exact h.2.1 [(⟨0, 0⟩ : Point), ⟨1, 0⟩, ⟨0, 0⟩] (by decide)
      (⟨0, 0⟩ : Point) (by decide) [(⟨0, 0⟩ : Point), ⟨1, 0⟩, ⟨0, 0⟩]
      (by decide) (⟨1, 0⟩ : Point) (by decide)
